import Mathlib

/-!
Verification of the cosmic-exploration tracker core
(`src/scraper.js`, `src/ffxiv-cosmic-scraper.js`, `src/app.js`, `src/utils.js`).

The JavaScript source is shallowly embedded: JS numbers that are always
integers are modelled as `Int`/`Nat`, gauge fractions as `ℚ`, JS strings as
`String`, absent values (`null`/`undefined`) as `Option`, and `NaN` by a
dedicated constructor where it can arise.  DOM queries are external to the
core (spec §6): a server card is modelled as the record of the query results
the scraper reads from it.
-/

namespace Cosmic

/-- JS `String.prototype.toLowerCase`, modelled character-wise. -/
def jsToLower (s : String) : String := ⟨s.data.map Char.toLower⟩

/-- Strip an expected pattern from the head of a list, or fail. -/
def stripHead : List Char → List Char → Option (List Char)
  | [], l => some l
  | _ :: _, [] => none
  | p :: ps, c :: cs => if c = p then stripHead ps cs else none

/-- Does the pattern occur as a contiguous sublist? -/
def hasInfix (pat : List Char) : List Char → Bool
  | [] => (stripHead pat []).isSome
  | c :: cs => (stripHead pat (c :: cs)).isSome || hasInfix pat cs

/-- JS `String.prototype.includes pat` : `pat` occurs as a contiguous
substring. -/
def jsIncludes (s pat : String) : Bool := hasInfix pat.data s.data

/-- JS `String.prototype.startsWith`. -/
def jsStartsWith (s pre : String) : Bool := (stripHead pre.data s.data).isSome

/-- JS `String.prototype.trim`: strip whitespace from both ends. -/
def jsTrim (s : String) : String :=
  ⟨((s.data.dropWhile Char.isWhitespace).reverse.dropWhile Char.isWhitespace).reverse⟩

/-- JS `String(n).padStart(2, "0")` for a natural number. -/
def pad2 (n : Nat) : String := if n < 10 then "0" ++ toString n else toString n

/-! ### Gauge decoder: `parseGaugeValue` (scraper.js lines 292-309)

The regex `/gauge-(\d+)/` is embedded as a left-to-right scan for the first
occurrence of the literal `gauge-` followed by at least one decimal digit;
the captured group is the maximal digit run at that position, and
`parseInt(match[1])` is its decimal value. -/

/-- Maximal run of decimal digits at the head of a character list. -/
def leadingDigits : List Char → List Char
  | [] => []
  | c :: cs => if c.isDigit then c :: leadingDigits cs else []

/-- Decimal value of a digit string (`parseInt` on the regex capture). -/
def digitsToNat (ds : List Char) : Nat :=
  ds.foldl (fun acc c => 10 * acc + (c.toNat - ('0').toNat)) 0

/-- Try to match `gauge-` followed by one or more digits at the head,
returning the decimal value of the digit run. -/
def gaugeAt (l : List Char) : Option Nat :=
  match stripHead ("gauge-".data) l with
  | none => none
  | some rest =>
      if (leadingDigits rest).isEmpty then none
      else some (digitsToNat (leadingDigits rest))

/-- First match of `/gauge-(\d+)/`, scanning left to right. -/
def matchGaugeNum : List Char → Option Nat
  | [] => none
  | c :: cs =>
      match gaugeAt (c :: cs) with
      | some n => some n
      | none => matchGaugeNum cs

/-- `FFXIVCosmicScraper.parseGaugeValue` (scraper.js lines 292-309):
empty string is falsy and yields `0.0`; a string containing `gauge-max`
yields `1.0`; otherwise the first `gauge-<digits>` occurrence yields
`digits / 8.0` (written `mkRat digits 8`, the same rational; see
`mkRat_ofNat_eight_eq_div`); otherwise `0.0`.  The function is total. -/
def parseGaugeValue (gaugeClass : String) : ℚ :=
  if gaugeClass = "" then 0
  else if jsIncludes gaugeClass "gauge-max" then 1
  else
    match matchGaugeNum gaugeClass.data with
    | some n => mkRat (Int.ofNat n) 8
    | none => 0

/-- `parseGaugeValue(gaugeClass)` where `gaugeClass` may be `undefined`
(as in the legacy extractor when `.pop()` is applied to an empty array):
`!gaugeClass` is then truthy and the result is `0.0`. -/
def parseGaugeValueOpt : Option String → ℚ
  | none => 0
  | some s => parseGaugeValue s

/-! ### JS `parseInt` (used for the grade text) -/

/-- Is the character a hexadecimal digit? -/
def isHexDig (c : Char) : Bool :=
  c.isDigit || ('a' ≤ c && c ≤ 'f') || ('A' ≤ c && c ≤ 'F')

/-- Value of a hexadecimal digit. -/
def hexVal (c : Char) : Nat :=
  if c.isDigit then c.toNat - ('0').toNat
  else if ('a' ≤ c ∧ c ≤ 'f') then c.toNat - ('a').toNat + 10
  else c.toNat - ('A').toNat + 10

/-- Base-16 value of a hex-digit string. -/
def hexToNat (ds : List Char) : Nat :=
  ds.foldl (fun acc c => 16 * acc + hexVal c) 0

/-- JS `parseInt(s)` with no radix argument: skip leading whitespace, read an
optional sign, then (after an optional `0x`/`0X` prefix, meaning base 16) the
maximal run of digits; `none` models `NaN` when no digit is read. -/
def jsParseInt (s : String) : Option Int :=
  let l0 := s.data.dropWhile (fun c => c.isWhitespace)
  let sign : Int := match l0 with
    | '-' :: _ => -1
    | _ => 1
  let l := match l0 with
    | '-' :: rest => rest
    | '+' :: rest => rest
    | _ => l0
  match l with
  | '0' :: 'x' :: rest =>
      let ds := rest.takeWhile (fun c => isHexDig c)
      if ds.isEmpty then none else some (sign * (hexToNat ds : Int))
  | '0' :: 'X' :: rest =>
      let ds := rest.takeWhile (fun c => isHexDig c)
      if ds.isEmpty then none else some (sign * (hexToNat ds : Int))
  | _ =>
      let ds := leadingDigits l
      if ds.isEmpty then none else some (sign * (digitsToNat ds : Int))

/-! ### Document model and record extraction (scraper.js `scrape`, lines 323-377)

DOM querying is the external parser collaborator; a server card is the record
of the query results the extractor reads: the (trimmed) name text, the grade
element's text when the element exists, the (trimmed) status text, the class
list of the progress-bar element when it exists, and whether a
`.cosmic__report__status__progress p` transition marker exists. -/

structure ServerCard where
  name : String
  gradeText : Option String
  statusText : String
  progressBarClasses : Option (List String)
  hasTransitionP : Bool
deriving DecidableEq, Repr

structure DataCenterBlock where
  title : String
  cards : List ServerCard
deriving DecidableEq, Repr

/-- A parsed report document: the data-center blocks in document order. -/
abbrev Doc := List DataCenterBlock

/-- A record as built by `scrape` (scraper.js lines 364-371).  `grade` is
`Option Int`: `none` models the JS `NaN` produced when `parseInt` fails on
the grade text. -/
structure ScrapedRecord where
  serverName : String
  dataCenter : String
  grade : Option Int
  progressPercentage : ℚ
  rawGauge : String
  statusText : String
deriving DecidableEq, Repr

/-- Raw grade before the completion adjustment (scraper.js lines 340-342):
`0` when the grade element is missing, otherwise `parseInt` of its text. -/
def rawGrade (server : ServerCard) : Option Int :=
  match server.gradeText with
  | none => some 0
  | some t => jsParseInt (jsTrim t)

/-- Gauge class selected by the current extractor (scraper.js lines 352-357):
the first class token starting with `gauge-`, defaulting to `gauge-0`. -/
def currentGaugeClass (server : ServerCard) : String :=
  match server.progressBarClasses with
  | none => "gauge-0"
  | some classes =>
      match classes.find? (fun c => jsStartsWith c "gauge-") with
      | some found => found
      | none => "gauge-0"

/-- One record of `scrape`'s per-card loop (scraper.js lines 337-373). -/
def extractCard (dcName : String) (server : ServerCard) : ScrapedRecord :=
  let serverName := server.name
  let grade := rawGrade server
  let statusText := server.statusText
  let grade :=
    if jsIncludes (jsToLower statusText) "complete" then grade.map (· - 1) else grade
  let gaugeClass := currentGaugeClass server
  let gaugeClass := if server.hasTransitionP then "gauge-max" else gaugeClass
  let progressPercentage := parseGaugeValue gaugeClass
  { serverName, dataCenter := dcName, grade, progressPercentage,
    rawGauge := gaugeClass, statusText }

/-- The full extraction loop of `scrape` over the parsed document. -/
def extractAll (doc : Doc) : List ScrapedRecord :=
  doc.flatMap (fun dc => dc.cards.map (extractCard dc.title))

/-- In-memory scraper state: `this.htmlContent` (here: the already-parsed
document, `none` = `null`) and `this.data`. -/
structure ScraperState where
  htmlContent : Option Doc
  data : List ScrapedRecord
deriving DecidableEq, Repr

/-- `FFXIVCosmicScraper.scrape` (scraper.js lines 323-377) as a state
transformer.  `fetchResult` is the outcome of the external `fetchHtml`
collaborator (`none` = all proxies failed), consulted only when no content is
cached.  On failure the method logs and returns `[]` without touching state;
otherwise it extracts the whole document and replaces `this.data` with the
complete result in one assignment.  (The returned list on the success path
models the sibling variants that `return result`; the variant at lines
323-377 returns `undefined` there — the claims constrain only the failure
return value, which is `[]` in every variant.) -/
def scrape (st : ScraperState) (fetchResult : Option Doc) :
    ScraperState × List ScrapedRecord :=
  match st.htmlContent with
  | some doc =>
      let result := extractAll doc
      ({ st with data := result }, result)
  | none =>
      match fetchResult with
      | none => (st, [])
      | some doc =>
          let result := extractAll doc
          ({ htmlContent := some doc, data := result }, result)

/-! ### Legacy gauge-token pick (scraper.js lines 106-115, first shipped
variant): `filter(c => c.startsWith('gauge-')).pop()`, i.e. the LAST matching
token, and `undefined` (modelled `none`) when the progress bar exists but has
no matching token. -/

def legacyGaugeClass (server : ServerCard) : Option String :=
  let base : Option String :=
    match server.progressBarClasses with
    | some classes => (classes.filter (fun c => jsStartsWith c "gauge-")).getLast?
    | none => some "gauge-0"
  if server.hasTransitionP then some "gauge-max" else base

/-- Progress percentage computed by the legacy variant. -/
def legacyProgress (server : ServerCard) : ℚ :=
  parseGaugeValueOpt (legacyGaugeClass server)

/-! ### Ranking engine: `createRanking` (scraper.js lines 384-444)

A well-formed `ServerRecord` (spec §3) has an integer grade and a rational
progress fraction; `createRanking` is embedded over these.

JS `Array.prototype.sort` is a stable sort; it is modelled by
`List.mergeSort`, the standard stable sort of the library.  The JS group key
is the string `` `${grade}_${progressPercentage}` ``: JS number-to-string is
injective and the comparator recovers the pair with `split('_').map(Number)`,
so the key is modelled directly as the pair `(grade, progressPercentage)`. -/

structure ServerRecord where
  serverName : String
  dataCenter : String
  grade : Int
  progressPercentage : ℚ
  rawGauge : String
  statusText : String
deriving DecidableEq, Repr

/-- A record annotated by the ranking engine with `rank` and the formatted
`progress` string. -/
structure RankedRecord extends ServerRecord where
  rank : Nat
  progress : String
deriving DecidableEq, Repr

/-- The `(grade, progressPercentage)` group key. -/
abbrev GpKey := Int × ℚ

def gpKey (r : ServerRecord) : GpKey := (r.grade, r.progressPercentage)

def keyR (x : RankedRecord) : GpKey := (x.grade, x.progressPercentage)

/-- Strict "ranks higher than" order on group keys: higher grade first, then
higher progress. -/
def keyGT (k1 k2 : GpKey) : Prop :=
  k2.1 < k1.1 ∨ (k1.1 = k2.1 ∧ k2.2 < k1.2)

instance (k1 k2 : GpKey) : Decidable (keyGT k1 k2) := by
  unfold keyGT; infer_instance

/-- The record comparator `(a, b) => b.grade - a.grade ||
b.progressPercentage - a.progressPercentage` read as "`a` may precede `b`"
(comparator value `≤ 0`). -/
def recLE (a b : ServerRecord) : Bool :=
  decide (b.grade < a.grade ∨ (a.grade = b.grade ∧ b.progressPercentage ≤ a.progressPercentage))

/-- The group comparator of `sortedGroups` (scraper.js lines 414-419); it
parses the keys back into numbers and compares the same way. -/
def groupLE (a b : GpKey × Nat) : Bool :=
  decide (b.1.1 < a.1.1 ∨ (a.1.1 = b.1.1 ∧ b.1.2 ≤ a.1.2))

/-- Final display comparator `(a, b) => a.rank - b.rank`. -/
def rankLE (a b : RankedRecord) : Bool := a.rank ≤ b.rank

/-- One step of the `groupCounts` map construction (scraper.js lines
408-411): JS `Map` keeps insertion order and increments the count of an
existing key in place. -/
def insertCount : List (GpKey × Nat) → GpKey → List (GpKey × Nat)
  | [], k => [(k, 1)]
  | (k', c) :: t, k =>
      if k' = k then (k', c + 1) :: t else (k', c) :: insertCount t k

/-- `groupCounts`: per-key member counts in first-occurrence order. -/
def groupCounts (l : List ServerRecord) : List (GpKey × Nat) :=
  l.foldl (fun acc r => insertCount acc (gpKey r)) []

/-- One step of the rank-generation loop (scraper.js lines 421-430).  State:
`(rank, currentPosition, currentKey, rankMapping)`; the mapping is an object
keyed by the (distinct) group keys, modelled as an association list. -/
def rankStep (st : Nat × Nat × Option GpKey × List (GpKey × Nat))
    (g : GpKey × Nat) : Nat × Nat × Option GpKey × List (GpKey × Nat) :=
  if st.2.2.1 = some g.1 then (st.1, st.2.1, st.2.2.1, st.2.2.2 ++ [(g.1, st.1)])
  else (st.2.1 + g.2 + 1, st.2.1 + g.2, some g.1, st.2.2.2 ++ [(g.1, st.1)])

/-- JS object property lookup on the rank mapping. -/
def lookupRank : List (GpKey × Nat) → GpKey → Option Nat
  | [], _ => none
  | (k', v) :: t, k => if k' = k then some v else lookupRank t k

/-- JS `` `${(q * 100).toFixed(2)}%` `` for a rational `q`: `toFixed(2)`
picks the integer `n` with `n / 100` closest to `q * 100`, ties to the
larger `n`, i.e. `n = ⌊10000 q + 1/2⌋`, computed here directly on the
numerator and denominator (`⌊(20000 num + den) / (2 den)⌋`); then renders
`n` with two decimal places.  The `-0.00` display of negative zero is not
modelled (progress values are non-negative). -/
def toFixed2pct (q : ℚ) : String :=
  let n : Int := (20000 * q.num + q.den).fdiv (2 * q.den)
  let m := n.natAbs
  let base := toString (m / 100) ++ "." ++ pad2 (m % 100)
  (if n < 0 then "-" ++ base else base) ++ "%"

/-- The optional data-center filter (scraper.js lines 393-395): applied only
when the argument is present, truthy (non-empty) and not `'all'`. -/
def filterDC (data : List ServerRecord) (dataCenter : Option String) :
    List ServerRecord :=
  match dataCenter with
  | none => data
  | some dc =>
      if dc ≠ "" ∧ dc ≠ "all" then data.filter (fun r => r.dataCenter == dc)
      else data

/-- Annotate a record with its rank and formatted progress (scraper.js lines
433-438); the lookup `rankMapping[key]` always succeeds for keys of ranked
records (`getD 0` stands for the impossible `undefined`). -/
def annotate (rankMapping : List (GpKey × Nat)) (r : ServerRecord) :
    RankedRecord :=
  { r with
    rank := (lookupRank rankMapping (gpKey r)).getD 0
    progress := toFixed2pct r.progressPercentage }

/-- Stage 1: the stable sort by `(grade desc, progressPercentage desc)`
(scraper.js line 398; JS `Array.prototype.sort` is stable). -/
def sortedRecs (data1 : List ServerRecord) : List ServerRecord :=
  data1.mergeSort recLE

/-- Stage 2-3: group counts over the sorted data, then the group entries
sorted by the same key order (scraper.js lines 405-419). -/
def sortedGroups (data1 : List ServerRecord) : List (GpKey × Nat) :=
  (groupCounts (sortedRecs data1)).mergeSort groupLE

/-- Stage 4: the rank mapping produced by the fold of scraper.js lines
421-430, started from `rank = 1`, `currentPosition = 0`,
`currentKey = null`, empty mapping. -/
def rankMapping (data1 : List ServerRecord) : List (GpKey × Nat) :=
  ((sortedGroups data1).foldl rankStep (1, 0, none, [])).2.2.2

/-- The ranking pipeline applied after the emptiness guard and the filter:
sort, group, sort the groups, assign competition ranks, annotate, and
re-sort by rank for display (scraper.js lines 398-443). -/
def rankPipeline (data1 : List ServerRecord) : List RankedRecord :=
  ((sortedRecs data1).map (annotate (rankMapping data1))).mergeSort rankLE

/-- Reference rank assignment: walking a (descending, duplicate-free) group
list, each group key is mapped to one more than the number of records placed
before it. -/
def rankAssign : List (GpKey × Nat) → Nat → List (GpKey × Nat)
  | [], _ => []
  | g :: t, pos => (g.1, pos + 1) :: rankAssign t (pos + g.2)

/-- Sum of the counts of the group entries whose key satisfies `q`. -/
def sumQ (q : GpKey → Bool) (G : List (GpKey × Nat)) : Nat :=
  (G.map (fun g => if q g.1 then g.2 else 0)).sum

/-- `FFXIVCosmicScraper.createRanking` (scraper.js lines 384-444). -/
def createRanking (data : List ServerRecord) (dataCenter : Option String) :
    List RankedRecord :=
  if data.isEmpty then [] else rankPipeline (filterDC data dataCenter)

/-! ### Cycle identity: `CosmicApp.getCurrentCycle` (app.js lines 252-274) -/

/-- The field values a JS `Date` reports for the current local time:
`getFullYear`, `getMonth() + 1`, `getDate`, `getHours`, `getMinutes`. -/
structure Timestamp where
  year : Int
  month : Nat
  day : Nat
  hours : Nat
  minutes : Nat
deriving DecidableEq, Repr

/-- `CosmicApp.getCurrentCycle`: cycle minute `02` for minutes 2-31, `32`
for minutes ≥ 32, and for minutes 0-1 the previous hour's `32` cycle with
the hour wrapped modulo 24 (`(hours - 1 + 24) % 24` in JS integer
arithmetic).  Format `YYYY-MM-DD-HH:MM`. -/
def getCurrentCycle (t : Timestamp) : String :=
  let cycleMinutes : String :=
    if 2 ≤ t.minutes ∧ t.minutes < 32 then "02"
    else if 32 ≤ t.minutes then "32"
    else "32"
  let cycleHours : Nat :=
    if 2 ≤ t.minutes ∧ t.minutes < 32 then t.hours
    else if 32 ≤ t.minutes then t.hours
    else ((((t.hours : Int) - 1 + 24) % 24).toNat)
  toString t.year ++ "-" ++ pad2 t.month ++ "-" ++ pad2 t.day ++ "-" ++
    pad2 cycleHours ++ ":" ++ cycleMinutes

/-- Days since 1970-01-01 of a proleptic-Gregorian civil date (standard
civil-from-days algorithm); used to give timestamps an absolute time line so
that "two timestamps fall in the same publication cycle" can be stated. -/
def daysFromCivil (y : Int) (m : Int) (d : Int) : Int :=
  let y := if m ≤ 2 then y - 1 else y
  let era := (if 0 ≤ y then y else y - 399) / 400
  let yoe := y - era * 400
  let mp := (m + 9) % 12
  let doy := (153 * mp + 2) / 5 + d - 1
  let doe := yoe * 365 + yoe / 4 - yoe / 100 + doy
  era * 146097 + doe - 719468

/-- Absolute minute count of a timestamp. -/
def absMinutes (t : Timestamp) : Int :=
  daysFromCivil t.year t.month t.day * 1440 + (t.hours : Int) * 60 + (t.minutes : Int)

/-- Index of the 30-minute publication cycle containing a timestamp: cycle
boundaries sit at minute 2 and minute 32 of every hour (spec §4.4), so cycle
`i` covers absolute minutes `[2 + 30*i, 2 + 30*(i+1))`. -/
def cycleIndex (t : Timestamp) : Int := (absMinutes t - 2).fdiv 30

/-- Two timestamps fall in the same publication cycle. -/
def sameCycle (t1 t2 : Timestamp) : Prop := cycleIndex t1 = cycleIndex t2

instance (t1 t2 : Timestamp) : Decidable (sameCycle t1 t2) := by
  unfold sameCycle; infer_instance

/-! ### Cycle/delta tracker: the delta loop of `CosmicApp.updateAndDisplay`
(app.js lines 202-233) -/

/-- A JS number that may be `NaN`. -/
inductive JSNum
  | num (q : ℚ)
  | nan
deriving DecidableEq, Repr

/-- One entry of the persisted `previousRankingState` snapshot, exactly as
the writer stores it (app.js lines 226-233). -/
structure SnapshotEntry where
  grade : Int
  progressNum : ℚ
deriving DecidableEq, Repr

/-- One entry of `lastCalculatedDiffs`. -/
structure DeltaRecord where
  gradeChanged : Bool
  progressDiff : JSNum
deriving DecidableEq, Repr

/-- JS object property lookup in an object modelled as an association list
(`undefined`, i.e. `none`, when the key is absent). -/
def jsGet {α : Type} : List (String × α) → String → Option α
  | [], _ => none
  | (k', v) :: t, k => if k' = k then some v else jsGet t k

/-- The delta-loop body (app.js lines 203-219), run for each ranking row
when the cycle has changed.  Note that ranking rows carry no `progressNum`
property (scraper.js lines 364-371 and 433-438 create `serverName`,
`dataCenter`, `grade`, `progressPercentage`, `rawGauge`, `statusText`,
`rank`, `progress` only), so the JS read `row.progressNum` evaluates to
`undefined`; `undefined - n` is `NaN`. -/
def computeDelta (previousRankingState : List (String × SnapshotEntry))
    (row : RankedRecord) : DeltaRecord :=
  match jsGet previousRankingState row.serverName with
  | none => { gradeChanged := false, progressDiff := JSNum.num 0 }
  | some prev =>
      let gradeChanged : Bool := decide (row.grade ≠ prev.grade)
      let rowProgressNum : Option ℚ := none
      let progressDiff : JSNum :=
        if some prev.progressNum ≠ rowProgressNum then
          match rowProgressNum with
          | none => JSNum.nan
          | some q => JSNum.num (q - prev.progressNum)
        else JSNum.num 0
      { gradeChanged, progressDiff }

/-- The whole `lastCalculatedDiffs` map built by the delta loop. -/
def computeDiffs (previousRankingState : List (String × SnapshotEntry))
    (ranking : List RankedRecord) : List (String × DeltaRecord) :=
  ranking.map (fun row => (row.serverName, computeDelta previousRankingState row))

/-- The snapshot writer (app.js lines 226-233): `stateToStore[serverName] =
{grade, progressNum: progressPercentage * 100}`. -/
def snapshotOf (ranking : List RankedRecord) : List (String × SnapshotEntry) :=
  ranking.map (fun row =>
    (row.serverName, { grade := row.grade, progressNum := row.progressPercentage * 100 }))

/-! ### Spec-side notions used to state the claims -/

/-- Number of records of `l` whose key ranks strictly higher than `k`. -/
def countGT (l : List ServerRecord) (k : GpKey) : Nat :=
  l.countP (fun r => decide (keyGT (gpKey r) k))

/-- The competition rank of key `k` within `l`: one more than the number of
records ranking strictly higher. -/
def competitionRank (l : List ServerRecord) (k : GpKey) : Nat := 1 + countGT l k

/-- Key `k` occurs among the records of `l`. -/
def occursIn (l : List ServerRecord) (k : GpKey) : Prop := ∃ r ∈ l, gpKey r = k

/-- The status text contains the completion marker `complete` in some letter
case: some contiguous piece of it lowercases to `complete`. -/
def specContainsMarker (s : String) : Prop :=
  ∃ l₁ w l₂, s.data = l₁ ++ w ++ l₂ ∧ w.map Char.toLower = "complete".data

/-! ## Theorems -/

/-- `mkRat n 8` is the division `n / 8` in `ℚ`. -/
theorem mkRat_ofNat_eight_eq_div (n : ℕ) : mkRat (Int.ofNat n) 8 = (n : ℚ) / 8 := by
  rw [show Int.ofNat n = (n : ℤ) from rfl, Rat.mkRat_eq_div]
  norm_num

/-! ### String-scanning lemmas -/

theorem stripHead_eq_some_iff {pat l rest : List Char} :
    stripHead pat l = some rest ↔ l = pat ++ rest := by
  induction pat generalizing l with
  | nil => simp [stripHead, eq_comm]
  | cons p ps ih =>
    cases l with
    | nil => simp [stripHead]
    | cons c cs =>
      by_cases h : c = p
      · subst h; simp [stripHead, ih]
      · simp [stripHead, h]

theorem stripHead_isSome_iff {pat l : List Char} :
    (stripHead pat l).isSome = true ↔ pat <+: l := by
  rw [Option.isSome_iff_exists]
  constructor
  · rintro ⟨rest, h⟩; exact ⟨rest, (stripHead_eq_some_iff.1 h).symm⟩
  · rintro ⟨rest, h⟩; exact ⟨rest, stripHead_eq_some_iff.2 h.symm⟩

theorem hasInfix_iff {pat l : List Char} : hasInfix pat l = true ↔ pat <:+: l := by
  induction l with
  | nil =>
    show (stripHead pat []).isSome = true ↔ _
    rw [stripHead_isSome_iff]
    simp
  | cons c cs ih =>
    show ((stripHead pat (c :: cs)).isSome || hasInfix pat cs) = true ↔ _
    rw [Bool.or_eq_true, stripHead_isSome_iff, ih, List.infix_cons_iff]

theorem jsIncludes_iff {s pat : String} :
    jsIncludes s pat = true ↔ pat.data <:+: s.data :=
  hasInfix_iff

theorem jsToLower_data (s : String) :
    (jsToLower s).data = s.data.map Char.toLower := rfl

/-- The status text contains the completion marker in some letter case iff
the code's lowercase-then-`includes('complete')` test succeeds. -/
theorem specContainsMarker_iff {s : String} :
    specContainsMarker s ↔ jsIncludes (jsToLower s) "complete" = true := by
  rw [jsIncludes_iff, jsToLower_data]
  constructor
  · rintro ⟨l₁, w, l₂, hs, hw⟩
    refine ⟨l₁.map Char.toLower, l₂.map Char.toLower, ?_⟩
    rw [hs]; simp [hw]
  · rintro ⟨t₁, t₂, h⟩
    rcases List.map_eq_append_iff.1 h.symm with ⟨u, l₂, hu, hmu, hl₂⟩
    rcases List.map_eq_append_iff.1 hmu with ⟨l₁, w, huw, hml₁, hmw⟩
    exact ⟨l₁, w, l₂, by rw [hu, huw], hmw⟩

/-! ### Gauge-pattern matching lemmas -/

theorem gaugeAt_eq_none_iff {l : List Char} :
    gaugeAt l = none ↔ ∀ d : Char, d.isDigit → ¬ (("gauge-".data ++ [d]) <+: l) := by
  unfold gaugeAt
  cases h : stripHead ("gauge-".data) l with
  | none =>
    simp only [true_iff]
    intro d _hd ⟨rest, hp⟩
    have : stripHead ("gauge-".data) l = some ([d] ++ rest) :=
      stripHead_eq_some_iff.2 (by rw [← hp]; simp)
    rw [h] at this; exact Option.noConfusion this
  | some rest =>
    have hl : l = "gauge-".data ++ rest := stripHead_eq_some_iff.1 h
    have hpre : ∀ d : Char, (("gauge-".data ++ [d]) <+: l) ↔ [d] <+: rest := by
      intro d
      constructor
      · rintro ⟨t, ht⟩
        rw [hl, List.append_assoc] at ht
        exact ⟨t, List.append_cancel_left ht⟩
      · rintro ⟨t, ht⟩
        exact ⟨t, by rw [hl, ← ht]; simp⟩
    cases rest with
    | nil =>
      simp only [leadingDigits, List.isEmpty_nil, if_true]
      simp only [true_iff]
      intro d _hd hp
      rcases (hpre d).1 hp with ⟨t, ht⟩
      exact List.noConfusion ht
    | cons r rs =>
      show (if (leadingDigits (r :: rs)).isEmpty = true then (none : Option ℕ)
          else some (digitsToNat (leadingDigits (r :: rs)))) = none ↔
          ∀ d : Char, d.isDigit = true → ¬ (("gauge-".data ++ [d]) <+: l)
      have hld : leadingDigits (r :: rs)
          = if r.isDigit then r :: leadingDigits rs else [] := rfl
      by_cases hr : r.isDigit
      · rw [hld, if_pos hr]
        refine iff_of_false (by simp) (fun hall => ?_)
        exact absurd ((hpre r).2 ⟨rs, rfl⟩) (hall r hr)
      · rw [hld, if_neg hr]
        refine iff_of_true (by simp) (fun d hd hp => ?_)
        rcases (hpre d).1 hp with ⟨t, ht⟩
        rw [List.cons_append] at ht
        injection ht with h1 _
        rw [h1] at hd; exact hr hd

theorem gaugeAt_some_exists {l : List Char} {n : ℕ} (h : gaugeAt l = some n) :
    ∃ d : Char, d.isDigit ∧ (("gauge-".data ++ [d]) <+: l) := by
  by_contra hc
  push_neg at hc
  have : gaugeAt l = none := gaugeAt_eq_none_iff.2 (fun d hd => hc d hd)
  rw [h] at this; exact Option.noConfusion this

theorem matchGaugeNum_eq_none_iff {l : List Char} :
    matchGaugeNum l = none ↔
      ∀ d : Char, d.isDigit → ¬ (("gauge-".data ++ [d]) <:+: l) := by
  induction l with
  | nil =>
    refine iff_of_true rfl (fun d _ hi => ?_)
    rcases hi with ⟨st, t, h⟩
    simp at h
  | cons c cs ih =>
    rw [matchGaugeNum]
    cases hg : gaugeAt (c :: cs) with
    | some n =>
      refine iff_of_false (fun h => Option.noConfusion h) (fun hall => ?_)
      rcases gaugeAt_some_exists hg with ⟨d, hd, hp⟩
      exact hall d hd hp.isInfix
    | none =>
      simp only [ih]
      constructor
      · intro hall d hd hi
        rcases List.infix_cons_iff.1 hi with hp | hi'
        · exact (gaugeAt_eq_none_iff.1 hg d hd) hp
        · exact hall d hd hi'
      · intro hall d hd hi
        exact hall d hd (List.infix_cons_iff.2 (Or.inr hi))

/-- Case analysis on the value of `parseGaugeValue`. -/
theorem parseGaugeValue_cases (s : String) :
    parseGaugeValue s = 0 ∨ parseGaugeValue s = 1 ∨
    ∃ n : ℕ, matchGaugeNum s.data = some n ∧
      parseGaugeValue s = mkRat (Int.ofNat n) 8 := by
  unfold parseGaugeValue
  by_cases h0 : s = ""
  · simp [h0]
  · simp only [h0, if_false]
    by_cases hmax : jsIncludes s "gauge-max" = true
    · simp [hmax]
    · simp only [Bool.not_eq_true] at hmax
      simp only [hmax, Bool.false_eq_true, if_false]
      cases hm : matchGaugeNum s.data with
      | none => exact Or.inl rfl
      | some n => exact Or.inr (Or.inr ⟨n, rfl, rfl⟩)

/-- C1.  `getCurrentCycle` produces the claimed identical strings for the
in-hour examples (minute 1 of hour 10 shares the 09:32 cycle id with minute
45 of hour 9; minute 3 of hour 10 maps to the 10:02 cycle), but at the
midnight hour boundary it wraps the hour with `(hours - 1 + 24) % 24` while
leaving the calendar date untouched: 23:45 on June 5 and 00:01 on June 6 lie
in the same publication cycle yet get different cycle ids, while 00:01 and
23:45 of June 6 lie in different cycles yet get the same id.  This
contradicts the required "identical for the same cycle, different
otherwise". -/
theorem getCurrentCycle_midnight_day_bug :
    sameCycle ⟨2025, 6, 5, 10, 1⟩ ⟨2025, 6, 5, 9, 45⟩ ∧
    getCurrentCycle ⟨2025, 6, 5, 10, 1⟩ = getCurrentCycle ⟨2025, 6, 5, 9, 45⟩ ∧
    getCurrentCycle ⟨2025, 6, 5, 10, 1⟩ = "2025-06-05-09:32" ∧
    getCurrentCycle ⟨2025, 6, 5, 10, 3⟩ = "2025-06-05-10:02" ∧
    sameCycle ⟨2025, 6, 5, 23, 45⟩ ⟨2025, 6, 6, 0, 1⟩ ∧
    getCurrentCycle ⟨2025, 6, 5, 23, 45⟩ ≠ getCurrentCycle ⟨2025, 6, 6, 0, 1⟩ ∧
    ¬ sameCycle ⟨2025, 6, 6, 0, 1⟩ ⟨2025, 6, 6, 23, 45⟩ ∧
    getCurrentCycle ⟨2025, 6, 6, 0, 1⟩ = getCurrentCycle ⟨2025, 6, 6, 23, 45⟩ := by
  decide

/-- C2.  The delta loop gets `gradeChanged` and the missing-snapshot default
right, but `progressDiff` is computed as `row.progressNum -
prev.progressNum` where ranking rows have no `progressNum` property: with a
prior snapshot entry present the code produces `NaN`, not
`progressPercentage * 100 - snapshotProgressNum` (here 62.5 - 50 = 12.5). -/
theorem computeDelta_progressDiff_nan_bug :
    (computeDelta
        (snapshotOf [{ serverName := "Adamantoise", dataCenter := "Aether",
                       grade := 2, progressPercentage := 1/2,
                       rawGauge := "gauge-4", statusText := "Researching",
                       rank := 1, progress := "50.00%" }])
        { serverName := "Adamantoise", dataCenter := "Aether", grade := 2,
          progressPercentage := 5/8, rawGauge := "gauge-5",
          statusText := "Researching", rank := 1, progress := "62.50%" }
      = { gradeChanged := false, progressDiff := JSNum.nan }) ∧
    JSNum.nan ≠ JSNum.num ((5/8 : ℚ) * 100 - 50) ∧
    (computeDelta []
        { serverName := "Adamantoise", dataCenter := "Aether", grade := 2,
          progressPercentage := 5/8, rawGauge := "gauge-5",
          statusText := "Researching", rank := 1, progress := "62.50%" }
      = { gradeChanged := false, progressDiff := JSNum.num 0 }) := by
  decide

/-- C9.  If no markup is cached and the fetch fails, `scrape` returns `[]`
and leaves the state (in particular `this.data`) untouched; in every case
the stored record set is either the previous one or the complete extraction
of a whole document, and the returned list is either the failure `[]` or
exactly the newly stored complete set. -/
theorem scrape_failure_atomicity (st : ScraperState) (f : Option Doc) :
    (st.htmlContent = none → f = none → scrape st f = (st, [])) ∧
    ((scrape st f).1.data = st.data ∨ ∃ doc : Doc, (scrape st f).1.data = extractAll doc) ∧
    ((scrape st f).2 = [] ∨ (scrape st f).2 = (scrape st f).1.data) := by
  rcases st with ⟨hc, data⟩
  cases hc <;> cases f <;> simp [scrape]

theorem scrape_failure_atomicity_witness :
    scrape ⟨none, [{ serverName := "Adamantoise", dataCenter := "Aether",
                     grade := some 3, progressPercentage := 1/4,
                     rawGauge := "gauge-2", statusText := "Researching" }]⟩ none
      = (⟨none, [{ serverName := "Adamantoise", dataCenter := "Aether",
                   grade := some 3, progressPercentage := 1/4,
                   rawGauge := "gauge-2", statusText := "Researching" }]⟩, []) :=
  (scrape_failure_atomicity _ none).1 rfl rfl

/-- C10 counterexample.  With two distinct gauge tokens on the progress bar
the legacy extractor (`filter(...).pop()`, the last token) and the current
extractor (`find(...)`, the first token) pick different tokens and produce
different progress values, refuting the claimed equivalence. -/
theorem gauge_pick_variants_disagree :
    legacyGaugeClass ⟨"Moogle", some "3", "Researching",
        some ["gauge-3", "gauge-7"], false⟩ = some "gauge-7" ∧
    (extractCard "Chaos" ⟨"Moogle", some "3", "Researching",
        some ["gauge-3", "gauge-7"], false⟩).rawGauge = "gauge-3" ∧
    legacyProgress ⟨"Moogle", some "3", "Researching",
        some ["gauge-3", "gauge-7"], false⟩ = 7/8 ∧
    (extractCard "Chaos" ⟨"Moogle", some "3", "Researching",
        some ["gauge-3", "gauge-7"], false⟩).progressPercentage = 3/8 ∧
    (7/8 : ℚ) ≠ 3/8 := by
  refine ⟨by decide, by decide, ?_, ?_, by norm_num⟩
  · rw [show legacyProgress ⟨"Moogle", some "3", "Researching",
        some ["gauge-3", "gauge-7"], false⟩ = mkRat (Int.ofNat 7) 8 from by decide]
    rw [mkRat_ofNat_eight_eq_div]; norm_num
  · rw [show (extractCard "Chaos" ⟨"Moogle", some "3", "Researching",
        some ["gauge-3", "gauge-7"], false⟩).progressPercentage
        = mkRat (Int.ofNat 3) 8 from by decide]
    rw [mkRat_ofNat_eight_eq_div]; norm_num

/-- Unrecognized indicator: no `gauge-max` occurrence and no `gauge-<digit>`
occurrence means the decoder returns `0.0`. -/
theorem parseGaugeValue_unrecognized (s : String)
    (hmax : ¬ ("gauge-max".data <:+: s.data))
    (hnod : ∀ d : Char, d.isDigit → ¬ (("gauge-".data ++ [d]) <:+: s.data)) :
    parseGaugeValue s = 0 := by
  by_cases hne : s = ""
  · rw [hne]; rfl
  · have hj : jsIncludes s "gauge-max" = false :=
      Bool.eq_false_iff.2 (fun h => hmax (jsIncludes_iff.1 h))
    have hm : matchGaugeNum s.data = none := matchGaugeNum_eq_none_iff.2 hnod
    unfold parseGaugeValue
    simp [hne, hj, hm]

/-- C5 counterexample.  `"gauge-9"` is neither empty, nor a `gauge-max` form,
nor a step indicator with `n` in 0..7, so the claim assigns it `0.0`; the
decoder actually returns `9/8` (which moreover exceeds 1). -/
theorem parseGaugeValue_out_of_range_step :
    parseGaugeValue "gauge-9" = (9 : ℚ) / 8 ∧ (9 : ℚ) / 8 ≠ 0 ∧
    ¬ ((9 : ℚ) / 8 ≤ 1) ∧ "gauge-9" ≠ "" ∧
    jsIncludes "gauge-9" "gauge-max" = false ∧
    (∀ n : ℕ, n ≤ 7 → "gauge-9" ≠ "gauge-" ++ toString n) := by
  refine ⟨?_, by norm_num, by norm_num, by decide, by decide, by decide⟩
  rw [show parseGaugeValue "gauge-9" = mkRat (Int.ofNat 9) 8 from by decide,
    mkRat_ofNat_eight_eq_div]
  norm_num

/-- C5 (amended).  `parseGaugeValue` is total (it is a Lean function);
empty input yields `0.0`; any input containing `gauge-max` yields exactly
`1.0`; any step indicator `gauge-n` yields `n/8` — for every digit run, so
`n ≥ 9` yields a value above 1, not `0.0` as originally claimed; and inputs
with no `gauge-max` and no `gauge-` followed by a digit yield `0.0`. -/
theorem parseGaugeValue_characterization :
    parseGaugeValue "" = 0 ∧
    (∀ s : String, "gauge-max".data <:+: s.data → parseGaugeValue s = 1) ∧
    (∀ n : ℕ, n ≤ 7 → parseGaugeValue ("gauge-" ++ toString n) = (n : ℚ) / 8) ∧
    (∀ (s : String) (n : ℕ), ¬ ("gauge-max".data <:+: s.data) →
      matchGaugeNum s.data = some n → parseGaugeValue s = (n : ℚ) / 8) ∧
    (∀ s : String, ¬ ("gauge-max".data <:+: s.data) →
      (∀ d : Char, d.isDigit → ¬ (("gauge-".data ++ [d]) <:+: s.data)) →
      parseGaugeValue s = 0) := by
  refine ⟨rfl, ?_, ?_, ?_, parseGaugeValue_unrecognized⟩
  · intro s hinf
    have hne : s ≠ "" := by
      rintro rfl
      rcases hinf with ⟨a, b, hab⟩
      simp at hab
    have hj : jsIncludes s "gauge-max" = true := jsIncludes_iff.2 hinf
    unfold parseGaugeValue
    simp [hne, hj]
  · intro n hn
    have key : ∀ m : ℕ, m ≤ 7 →
        parseGaugeValue ("gauge-" ++ toString m) = mkRat (Int.ofNat m) 8 := by decide
    rw [key n hn, mkRat_ofNat_eight_eq_div]
  · intro s n hmax hm
    have hne : s ≠ "" := by
      rintro rfl
      rw [show ("" : String).data = [] from rfl] at hm
      exact Option.noConfusion hm
    have hj : jsIncludes s "gauge-max" = false :=
      Bool.eq_false_iff.2 (fun h => hmax (jsIncludes_iff.1 h))
    unfold parseGaugeValue
    simp only [hne, if_false, hj, Bool.false_eq_true, hm]
    exact mkRat_ofNat_eight_eq_div n

theorem parseGaugeValue_characterization_witness :
    (5 : ℕ) ≤ 7 ∧ parseGaugeValue ("gauge-" ++ toString 5) = (5 : ℚ) / 8 :=
  ⟨by decide, parseGaugeValue_characterization.2.2.1 5 (by decide)⟩

/-- Bounds for a decoded step value `n/8` with `n ≤ 8`. -/
theorem mkRat_step_bounds {n : ℕ} (h : n ≤ 8) :
    0 ≤ mkRat (Int.ofNat n) 8 ∧ mkRat (Int.ofNat n) 8 ≤ 1 := by
  rw [mkRat_ofNat_eight_eq_div]
  constructor
  · positivity
  · rw [div_le_one (by norm_num)]
    exact_mod_cast h

/-- C4 counterexample.  A card whose progress bar carries the class
`gauge-9` (not in the shipped vocabulary) produces an extracted record with
`progressPercentage = 9/8 > 1`, violating the claimed `[0, 1]` invariant. -/
theorem progressPercentage_exceeds_one :
    (extractCard "Chaos" ⟨"Ragnarok", some "3", "Researching",
        some ["gauge-9"], false⟩).progressPercentage = (9 : ℚ) / 8 ∧
    ¬ ((9 : ℚ) / 8 ≤ 1) := by
  refine ⟨?_, by norm_num⟩
  rw [show (extractCard "Chaos" ⟨"Ragnarok", some "3", "Researching",
      some ["gauge-9"], false⟩).progressPercentage
      = mkRat (Int.ofNat 9) 8 from by decide, mkRat_ofNat_eight_eq_div]
  norm_num

/-- C4 (amended).  For every extracted record whose progress-bar gauge
tokens all encode a digit run of value at most 8 — in particular for the
shipped vocabulary `gauge-0` … `gauge-7`, `gauge-max` — the stored
`progressPercentage` lies in `[0, 1]`; and any unrecognized indicator (no
`gauge-max` occurrence, no `gauge-` followed by a digit) decodes to `0.0`.
A token `gauge-n` with `n ≥ 9` escapes the interval (see the
counterexample), which is what forces the vocabulary hypothesis. -/
theorem progressPercentage_in_unit_interval :
    (∀ (dcName : String) (card : ServerCard),
      (∀ t ∈ card.progressBarClasses.getD [], ∀ n : ℕ,
        matchGaugeNum t.data = some n → n ≤ 8) →
      0 ≤ (extractCard dcName card).progressPercentage ∧
      (extractCard dcName card).progressPercentage ≤ 1) ∧
    (∀ s : String, ¬ ("gauge-max".data <:+: s.data) →
      (∀ d : Char, d.isDigit → ¬ (("gauge-".data ++ [d]) <:+: s.data)) →
      parseGaugeValue s = 0) := by
  refine ⟨?_, parseGaugeValue_unrecognized⟩
  intro dcName card hbound
  have hpp : (extractCard dcName card).progressPercentage
      = parseGaugeValue
          (if card.hasTransitionP then "gauge-max" else currentGaugeClass card) := rfl
  rw [hpp]
  cases hT : card.hasTransitionP with
  | true =>
    rw [if_pos rfl]
    norm_num [show parseGaugeValue "gauge-max" = 1 from by decide]
  | false =>
    rw [if_neg (by simp)]
    have hzero : 0 ≤ parseGaugeValue "gauge-0" ∧ parseGaugeValue "gauge-0" ≤ 1 := by
      rw [show parseGaugeValue "gauge-0" = mkRat (Int.ofNat 0) 8 from by decide]
      exact mkRat_step_bounds (by norm_num)
    cases hpb : card.progressBarClasses with
    | none =>
      rw [show currentGaugeClass card = "gauge-0" from by
        simp [currentGaugeClass, hpb]]
      exact hzero
    | some classes =>
      cases hf : classes.find? (fun c => jsStartsWith c "gauge-") with
      | none =>
        rw [show currentGaugeClass card = "gauge-0" from by
          simp [currentGaugeClass, hpb, hf]]
        exact hzero
      | some t =>
        rw [show currentGaugeClass card = t from by
          simp [currentGaugeClass, hpb, hf]]
        have htmem : t ∈ classes := List.mem_of_find?_eq_some hf
        have hb : ∀ n : ℕ, matchGaugeNum t.data = some n → n ≤ 8 := by
          intro n hn
          exact hbound t (by rw [hpb]; exact htmem) n hn
        rcases parseGaugeValue_cases t with h | h | ⟨n, hn, h⟩
        · rw [h]; norm_num
        · rw [h]; norm_num
        · rw [h]; exact mkRat_step_bounds (hb n hn)

theorem progressPercentage_in_unit_interval_witness :
    (∀ t ∈ (ServerCard.mk "Ragnarok" (some "3") "Researching"
        (some ["gauge-5"]) false).progressBarClasses.getD [], ∀ n : ℕ,
      matchGaugeNum t.data = some n → n ≤ 8) ∧
    0 ≤ (extractCard "Chaos" (ServerCard.mk "Ragnarok" (some "3") "Researching"
        (some ["gauge-5"]) false)).progressPercentage ∧
    (extractCard "Chaos" (ServerCard.mk "Ragnarok" (some "3") "Researching"
        (some ["gauge-5"]) false)).progressPercentage ≤ 1 :=
  ⟨by decide, (progressPercentage_in_unit_interval.1 "Chaos" _ (by decide)).1,
    (progressPercentage_in_unit_interval.1 "Chaos" _ (by decide)).2⟩

/-- `find?` returns the first element satisfying the test. -/
theorem find?_append_cons {α : Type} {p : α → Bool} (l₁ : List α) (t : α)
    (l₂ : List α) (h₁ : ∀ u ∈ l₁, p u = false) (ht : p t = true) :
    (l₁ ++ t :: l₂).find? p = some t := by
  induction l₁ with
  | nil => rw [List.nil_append, List.find?_cons_of_pos _ ht]
  | cons a as ih =>
    rw [List.cons_append,
      List.find?_cons_of_neg _ (by simp [h₁ a (List.mem_cons_self a as)])]
    exact ih (fun u hu => h₁ u (List.mem_cons_of_mem a hu))

/-- C6.  Gauge-indicator selection precedence: (a) a transition marker
forces `gauge-max` (and hence progress 1.0) regardless of the class list;
(b) otherwise the first class token starting with `gauge-` is used; (c) with
no such token — or no progress-bar element at all — the zero step `gauge-0`
is used. -/
theorem gauge_selection_priority (dcName : String) (card : ServerCard) :
    (card.hasTransitionP = true →
      (extractCard dcName card).rawGauge = "gauge-max" ∧
      (extractCard dcName card).progressPercentage = 1) ∧
    (card.hasTransitionP = false → ∀ classes : List String,
      card.progressBarClasses = some classes →
      (∀ (l₁ : List String) (t : String) (l₂ : List String),
        classes = l₁ ++ t :: l₂ →
        (∀ u ∈ l₁, jsStartsWith u "gauge-" = false) →
        jsStartsWith t "gauge-" = true →
        (extractCard dcName card).rawGauge = t) ∧
      ((∀ u ∈ classes, jsStartsWith u "gauge-" = false) →
        (extractCard dcName card).rawGauge = "gauge-0")) ∧
    (card.hasTransitionP = false → card.progressBarClasses = none →
      (extractCard dcName card).rawGauge = "gauge-0") := by
  have hraw : (extractCard dcName card).rawGauge
      = if card.hasTransitionP then "gauge-max" else currentGaugeClass card := rfl
  have hpp : (extractCard dcName card).progressPercentage
      = parseGaugeValue
          (if card.hasTransitionP then "gauge-max" else currentGaugeClass card) := rfl
  refine ⟨?_, ?_, ?_⟩
  · intro hT
    constructor
    · rw [hraw, hT]; rfl
    · rw [hpp, hT]
      exact (by decide : parseGaugeValue "gauge-max" = 1)
  · intro hT classes hpb
    constructor
    · intro l₁ t l₂ hcl h₁ ht
      rw [hraw, hT, if_neg (by simp),
        show currentGaugeClass card = t from by
          simp only [currentGaugeClass, hpb, hcl]
          rw [find?_append_cons l₁ t l₂ h₁ ht]]
    · intro hnone
      rw [hraw, hT, if_neg (by simp),
        show currentGaugeClass card = "gauge-0" from by
          simp only [currentGaugeClass, hpb]
          rw [List.find?_eq_none.2 (fun u hu => by simp [hnone u hu])]]
  · intro hT hpb
    rw [hraw, hT, if_neg (by simp),
      show currentGaugeClass card = "gauge-0" from by
        simp [currentGaugeClass, hpb]]

theorem gauge_selection_priority_witness :
    (ServerCard.mk "Ragnarok" (some "3") "Boundary Survey in progress"
        (some ["gauge-2"]) true).hasTransitionP = true ∧
    (extractCard "Chaos" (ServerCard.mk "Ragnarok" (some "3")
        "Boundary Survey in progress" (some ["gauge-2"]) true)).rawGauge
      = "gauge-max" ∧
    (extractCard "Chaos" (ServerCard.mk "Ragnarok" (some "3")
        "Boundary Survey in progress" (some ["gauge-2"]) true)).progressPercentage
      = 1 :=
  ⟨rfl, ((gauge_selection_priority "Chaos" _).1 rfl).1,
    ((gauge_selection_priority "Chaos" _).1 rfl).2⟩

/-- C7.  Completion adjustment: when the status text contains `complete` in
any letter case, the stored grade is the raw extracted grade minus one;
otherwise the raw grade is stored unchanged.  (The adjustment happens while
the record is built, before `this.data` is fed to `createRanking` or the
delta loop.)  The concrete instance: raw grade 5 with a completing status
stores grade 4. -/
theorem completion_adjustment :
    (∀ (dcName : String) (card : ServerCard) (g : Int), rawGrade card = some g →
      (specContainsMarker card.statusText →
        (extractCard dcName card).grade = some (g - 1)) ∧
      (¬ specContainsMarker card.statusText →
        (extractCard dcName card).grade = some g)) ∧
    (extractCard "Chaos" ⟨"Omega", some "5", "Grade 4 research Complete!",
        some ["gauge-2"], false⟩).grade = some 4 := by
  constructor
  · intro dcName card g hg
    have hgr : (extractCard dcName card).grade
        = if jsIncludes (jsToLower card.statusText) "complete"
          then (rawGrade card).map (· - 1) else rawGrade card := rfl
    constructor
    · intro hm
      rw [hgr, if_pos (specContainsMarker_iff.1 hm), hg]
      rfl
    · intro hm
      rw [hgr, if_neg (fun h => hm (specContainsMarker_iff.2 h)), hg]
  · decide

theorem completion_adjustment_witness :
    rawGrade ⟨"Omega", some "5", "Research Complete", some ["gauge-2"], false⟩
      = some 5 ∧
    (extractCard "Chaos" ⟨"Omega", some "5", "Research Complete",
        some ["gauge-2"], false⟩).grade = some 4 :=
  ⟨by decide,
    (completion_adjustment.1 "Chaos"
      ⟨"Omega", some "5", "Research Complete", some ["gauge-2"], false⟩ 5
      (by decide)).1
      ⟨"Research ".data, "Complete".data, [], by decide, by decide⟩⟩

/-- `find?` is the head of `filter`. -/
theorem find?_eq_head?_of_filter {α : Type} (p : α → Bool) (l : List α) :
    l.find? p = (l.filter p).head? := by
  induction l with
  | nil => rfl
  | cons a as ih =>
    by_cases ha : p a
    · rw [List.find?_cons_of_pos _ ha, List.filter_cons_of_pos ha]
      rfl
    · rw [List.find?_cons_of_neg _ ha, List.filter_cons_of_neg ha, ih]

/-- C10 (amended).  The legacy token pick (`filter(...).pop()`, last match,
`undefined` when the bar has no matching class) and the current pick
(`find(...)`, first match, `gauge-0` default) agree whenever the transition
marker is set, or the progress bar carries exactly one `gauge-` token, or it
carries none (then both decode progress `0.0`, though the legacy raw token
is `undefined` while the current one is `gauge-0`); with two or more
distinct `gauge-` tokens they can disagree (see the counterexample). -/
theorem gauge_pick_variants_agree_single_token (dcName : String)
    (card : ServerCard) :
    (card.hasTransitionP = true →
      legacyGaugeClass card = some "gauge-max" ∧
      (extractCard dcName card).rawGauge = "gauge-max" ∧
      legacyProgress card = (extractCard dcName card).progressPercentage) ∧
    (∀ t : String,
      (card.progressBarClasses.getD []).filter
          (fun c => jsStartsWith c "gauge-") = [t] →
      card.hasTransitionP = false →
      legacyGaugeClass card = some t ∧
      (extractCard dcName card).rawGauge = t ∧
      legacyProgress card = (extractCard dcName card).progressPercentage) ∧
    ((card.progressBarClasses.getD []).filter
          (fun c => jsStartsWith c "gauge-") = [] →
      card.hasTransitionP = false →
      legacyProgress card = 0 ∧
      (extractCard dcName card).progressPercentage = 0) := by
  have hraw : (extractCard dcName card).rawGauge
      = if card.hasTransitionP then "gauge-max" else currentGaugeClass card := rfl
  have hpp : (extractCard dcName card).progressPercentage
      = parseGaugeValue (extractCard dcName card).rawGauge := rfl
  refine ⟨?_, ?_, ?_⟩
  · intro hT
    have h1 : legacyGaugeClass card = some "gauge-max" := by
      unfold legacyGaugeClass; rw [hT]; rfl
    have h2 : (extractCard dcName card).rawGauge = "gauge-max" := by
      rw [hraw, hT]; rfl
    refine ⟨h1, h2, ?_⟩
    rw [hpp, h2, show legacyProgress card = parseGaugeValueOpt (legacyGaugeClass card) from rfl,
      h1]
    rfl
  · intro t hfil hT
    cases hpb : card.progressBarClasses with
    | none =>
      rw [hpb] at hfil
      exact absurd hfil (by simp)
    | some classes =>
      rw [hpb] at hfil
      simp only [Option.getD_some] at hfil
      have hfind : classes.find? (fun c => jsStartsWith c "gauge-") = some t := by
        rw [find?_eq_head?_of_filter, hfil]; rfl
      have h1 : legacyGaugeClass card = some t := by
        unfold legacyGaugeClass
        rw [hT, if_neg (by simp), hpb]
        simp only [hfil]
        rfl
      have h2 : (extractCard dcName card).rawGauge = t := by
        rw [hraw, hT, if_neg (by simp),
          show currentGaugeClass card = t from by
            simp [currentGaugeClass, hpb, hfind]]
      refine ⟨h1, h2, ?_⟩
      rw [hpp, h2,
        show legacyProgress card = parseGaugeValueOpt (legacyGaugeClass card) from rfl,
        h1]
      rfl
  · intro hfil hT
    have hcur : (extractCard dcName card).progressPercentage = 0 := by
      rw [hpp, hraw, hT, if_neg (by simp)]
      cases hpb : card.progressBarClasses with
      | none =>
        rw [show currentGaugeClass card = "gauge-0" from by
          simp [currentGaugeClass, hpb]]
        decide
      | some classes =>
        rw [hpb] at hfil
        simp only [Option.getD_some] at hfil
        have hfind : classes.find? (fun c => jsStartsWith c "gauge-") = none := by
          rw [find?_eq_head?_of_filter, hfil]; rfl
        rw [show currentGaugeClass card = "gauge-0" from by
          simp [currentGaugeClass, hpb, hfind]]
        decide
    refine ⟨?_, hcur⟩
    rw [show legacyProgress card = parseGaugeValueOpt (legacyGaugeClass card) from rfl]
    unfold legacyGaugeClass
    rw [hT, if_neg (by simp)]
    cases hpb : card.progressBarClasses with
    | none => decide
    | some classes =>
      rw [hpb] at hfil
      simp only [Option.getD_some] at hfil
      simp only [hfil]
      rfl

theorem gauge_pick_variants_agree_single_token_witness :
    ((ServerCard.mk "Moogle" (some "3") "Researching"
        (some ["cosmic", "gauge-4"]) false).progressBarClasses.getD []).filter
        (fun c => jsStartsWith c "gauge-") = ["gauge-4"] ∧
    legacyGaugeClass (ServerCard.mk "Moogle" (some "3") "Researching"
        (some ["cosmic", "gauge-4"]) false) = some "gauge-4" ∧
    (extractCard "Chaos" (ServerCard.mk "Moogle" (some "3") "Researching"
        (some ["cosmic", "gauge-4"]) false)).rawGauge = "gauge-4" ∧
    legacyProgress (ServerCard.mk "Moogle" (some "3") "Researching"
        (some ["cosmic", "gauge-4"]) false)
      = (extractCard "Chaos" (ServerCard.mk "Moogle" (some "3") "Researching"
        (some ["cosmic", "gauge-4"]) false)).progressPercentage :=
  ⟨by decide,
    ((gauge_pick_variants_agree_single_token "Chaos" _).2.1 "gauge-4"
      (by decide) rfl).1,
    ((gauge_pick_variants_agree_single_token "Chaos" _).2.1 "gauge-4"
      (by decide) rfl).2.1,
    ((gauge_pick_variants_agree_single_token "Chaos" _).2.1 "gauge-4"
      (by decide) rfl).2.2⟩

/-! ### Ranking engine: order lemmas -/

theorem keyGT_irrefl (k : GpKey) : ¬ keyGT k k := by
  rintro (h | ⟨-, h⟩) <;> exact lt_irrefl _ h

theorem keyGT_trans {a b c : GpKey} (h1 : keyGT a b) (h2 : keyGT b c) :
    keyGT a c := by
  rcases h1 with h1 | ⟨e1, h1⟩ <;> rcases h2 with h2 | ⟨e2, h2⟩
  · exact Or.inl (lt_trans h2 h1)
  · exact Or.inl (e2 ▸ h1)
  · exact Or.inl (e1 ▸ h2)
  · exact Or.inr ⟨e1.trans e2, lt_trans h2 h1⟩

theorem keyGT_asymm {a b : GpKey} (h : keyGT a b) : ¬ keyGT b a :=
  fun h' => keyGT_irrefl a (keyGT_trans h h')

theorem keyGT_trichotomy (a b : GpKey) : keyGT a b ∨ a = b ∨ keyGT b a := by
  rcases lt_trichotomy b.1 a.1 with h | h | h
  · exact Or.inl (Or.inl h)
  · rcases lt_trichotomy b.2 a.2 with h2 | h2 | h2
    · exact Or.inl (Or.inr ⟨h.symm, h2⟩)
    · exact Or.inr (Or.inl (Prod.ext h.symm h2.symm))
    · exact Or.inr (Or.inr (Or.inr ⟨h, h2⟩))
  · exact Or.inr (Or.inr (Or.inl h))

theorem recLE_iff {a b : ServerRecord} :
    recLE a b = true ↔ (keyGT (gpKey a) (gpKey b) ∨ gpKey a = gpKey b) := by
  unfold recLE
  rw [decide_eq_true_iff]
  constructor
  · rintro (h | ⟨e, h⟩)
    · exact Or.inl (Or.inl h)
    · rcases lt_or_eq_of_le h with h' | h'
      · exact Or.inl (Or.inr ⟨e, h'⟩)
      · exact Or.inr (Prod.ext e h'.symm)
  · rintro ((h | ⟨e, h⟩) | h)
    · exact Or.inl h
    · exact Or.inr ⟨e, le_of_lt h⟩
    · have e1 : a.grade = b.grade := congrArg Prod.fst h
      have e2 : a.progressPercentage = b.progressPercentage := congrArg Prod.snd h
      exact Or.inr ⟨e1, le_of_eq e2.symm⟩

theorem recLE_trans : ∀ a b c : ServerRecord,
    recLE a b = true → recLE b c = true → recLE a c = true := by
  intro a b c h1 h2
  rcases recLE_iff.1 h1 with h1 | h1 <;> rcases recLE_iff.1 h2 with h2 | h2
  · exact recLE_iff.2 (Or.inl (keyGT_trans h1 h2))
  · exact recLE_iff.2 (Or.inl (h2 ▸ h1))
  · exact recLE_iff.2 (Or.inl (h1 ▸ h2))
  · exact recLE_iff.2 (Or.inr (h1.trans h2))

theorem recLE_total : ∀ a b : ServerRecord,
    (recLE a b || recLE b a) = true := by
  intro a b
  rcases keyGT_trichotomy (gpKey a) (gpKey b) with h | h | h
  · simp [recLE_iff.2 (Or.inl h)]
  · simp [recLE_iff.2 (Or.inr h)]
  · simp [(recLE_iff (a := b) (b := a)).2 (Or.inl h)]

theorem groupLE_iff {a b : GpKey × Nat} :
    groupLE a b = true ↔ (keyGT a.1 b.1 ∨ a.1 = b.1) := by
  unfold groupLE
  rw [decide_eq_true_iff]
  constructor
  · rintro (h | ⟨e, h⟩)
    · exact Or.inl (Or.inl h)
    · rcases lt_or_eq_of_le h with h' | h'
      · exact Or.inl (Or.inr ⟨e, h'⟩)
      · exact Or.inr (Prod.ext e h'.symm)
  · rintro ((h | ⟨e, h⟩) | h)
    · exact Or.inl h
    · exact Or.inr ⟨e, le_of_lt h⟩
    · have e1 : a.1.1 = b.1.1 := congrArg Prod.fst h
      have e2 : a.1.2 = b.1.2 := congrArg Prod.snd h
      exact Or.inr ⟨e1, le_of_eq e2.symm⟩

theorem groupLE_trans : ∀ a b c : GpKey × Nat,
    groupLE a b = true → groupLE b c = true → groupLE a c = true := by
  intro a b c h1 h2
  rcases groupLE_iff.1 h1 with h1 | h1 <;> rcases groupLE_iff.1 h2 with h2 | h2
  · exact groupLE_iff.2 (Or.inl (keyGT_trans h1 h2))
  · exact groupLE_iff.2 (Or.inl (h2 ▸ h1))
  · exact groupLE_iff.2 (Or.inl (h1 ▸ h2))
  · exact groupLE_iff.2 (Or.inr (h1.trans h2))

theorem groupLE_total : ∀ a b : GpKey × Nat,
    (groupLE a b || groupLE b a) = true := by
  intro a b
  rcases keyGT_trichotomy a.1 b.1 with h | h | h
  · simp [groupLE_iff.2 (Or.inl h)]
  · simp [groupLE_iff.2 (Or.inr h)]
  · simp [(groupLE_iff (a := b) (b := a)).2 (Or.inl h)]

theorem rankLE_trans : ∀ a b c : RankedRecord,
    rankLE a b = true → rankLE b c = true → rankLE a c = true := by
  intro a b c h1 h2
  unfold rankLE at *
  simp only [decide_eq_true_iff] at *
  omega

theorem rankLE_total : ∀ a b : RankedRecord, (rankLE a b || rankLE b a) = true := by
  intro a b
  unfold rankLE
  simp only [Bool.or_eq_true, decide_eq_true_iff]
  omega

/-! ### Ranking engine: group-count lemmas -/

theorem sumQ_nil (q : GpKey → Bool) : sumQ q [] = 0 := rfl

theorem sumQ_cons (q : GpKey → Bool) (g : GpKey × Nat) (G : List (GpKey × Nat)) :
    sumQ q (g :: G) = (if q g.1 then g.2 else 0) + sumQ q G := rfl

theorem sumQ_insertCount (q : GpKey → Bool) (acc : List (GpKey × Nat)) (k : GpKey) :
    sumQ q (insertCount acc k) = sumQ q acc + (if q k then 1 else 0) := by
  induction acc with
  | nil => simp [insertCount, sumQ_cons, sumQ_nil]
  | cons g t ih =>
    rcases g with ⟨k', c⟩
    by_cases h : k' = k
    · subst h
      rw [show insertCount ((k', c) :: t) k' = (k', c + 1) :: t from by
        simp [insertCount]]
      rw [sumQ_cons, sumQ_cons]
      by_cases hq : q k'
      · simp [hq]
        omega
      · simp [hq]
    · rw [show insertCount ((k', c) :: t) k = (k', c) :: insertCount t k from by
        simp [insertCount, h]]
      rw [sumQ_cons, sumQ_cons, ih]
      omega

theorem sumQ_foldl (q : GpKey → Bool) :
    ∀ (l : List ServerRecord) (acc : List (GpKey × Nat)),
      sumQ q (l.foldl (fun acc r => insertCount acc (gpKey r)) acc)
        = sumQ q acc + l.countP (fun r => q (gpKey r)) := by
  intro l
  induction l with
  | nil => intro acc; simp
  | cons r t ih =>
    intro acc
    rw [List.foldl_cons, ih, sumQ_insertCount, List.countP_cons]
    omega

theorem sumQ_groupCounts (q : GpKey → Bool) (l : List ServerRecord) :
    sumQ q (groupCounts l) = l.countP (fun r => q (gpKey r)) := by
  unfold groupCounts
  rw [sumQ_foldl]
  simp [sumQ_nil]

theorem exists_mem_insertCount (acc : List (GpKey × Nat)) (k : GpKey) :
    ∃ c, (k, c) ∈ insertCount acc k := by
  induction acc with
  | nil => exact ⟨1, by simp [insertCount]⟩
  | cons g t ih =>
    rcases g with ⟨k', c'⟩
    by_cases h : k' = k
    · subst h
      exact ⟨c' + 1, by simp [insertCount]⟩
    · rcases ih with ⟨c, hc⟩
      exact ⟨c, by simp [insertCount, h, hc]⟩

theorem mem_insertCount_of_mem {acc : List (GpKey × Nat)} {k k' : GpKey} {c' : Nat}
    (h : (k', c') ∈ acc) (hne : k' ≠ k) : (k', c') ∈ insertCount acc k := by
  induction acc with
  | nil => simp at h
  | cons g t ih =>
    rcases g with ⟨k₀, c₀⟩
    rcases List.mem_cons.1 h with he | ht
    · have hk : k₀ ≠ k := by
        rcases Prod.mk.injEq .. ▸ he with ⟨h1, -⟩
        exact h1 ▸ hne
      simp [insertCount, hk, he]
    · by_cases h0 : k₀ = k
      · subst h0; simp [insertCount, ht]
      · simp [insertCount, h0, ih ht]

theorem mem_insertCount_elim {acc : List (GpKey × Nat)} {k : GpKey}
    {p : GpKey × Nat} (h : p ∈ insertCount acc k) : p ∈ acc ∨ p.1 = k := by
  induction acc with
  | nil =>
    simp [insertCount] at h
    rw [h]
    exact Or.inr rfl
  | cons g t ih =>
    rcases g with ⟨k₀, c₀⟩
    by_cases h0 : k₀ = k
    · subst h0
      rw [show insertCount ((k₀, c₀) :: t) k₀ = (k₀, c₀ + 1) :: t from by
        simp [insertCount]] at h
      rcases List.mem_cons.1 h with he | ht
      · exact Or.inr (by rw [he])
      · exact Or.inl (List.mem_cons_of_mem _ ht)
    · rw [show insertCount ((k₀, c₀) :: t) k = (k₀, c₀) :: insertCount t k from by
        simp [insertCount, h0]] at h
      rcases List.mem_cons.1 h with he | ht
      · exact Or.inl (he ▸ List.mem_cons_self _ _)
      · rcases ih ht with h' | h'
        · exact Or.inl (List.mem_cons_of_mem _ h')
        · exact Or.inr h'

theorem pairwise_keys_insertCount {acc : List (GpKey × Nat)} {k : GpKey}
    (h : acc.Pairwise (fun a b => a.1 ≠ b.1)) :
    (insertCount acc k).Pairwise (fun a b => a.1 ≠ b.1) := by
  induction acc with
  | nil => simp [insertCount]
  | cons g t ih =>
    rcases g with ⟨k₀, c₀⟩
    rcases List.pairwise_cons.1 h with ⟨hhd, htl⟩
    by_cases h0 : k₀ = k
    · subst h0
      rw [show insertCount ((k₀, c₀) :: t) k₀ = (k₀, c₀ + 1) :: t from by
        simp [insertCount]]
      exact List.pairwise_cons.2 ⟨hhd, htl⟩
    · rw [show insertCount ((k₀, c₀) :: t) k = (k₀, c₀) :: insertCount t k from by
        simp [insertCount, h0]]
      refine List.pairwise_cons.2 ⟨?_, ih htl⟩
      intro p hp
      rcases mem_insertCount_elim hp with hmem | hk
      · exact hhd p hmem
      · rw [hk]; exact h0

theorem pairwise_keys_groupCounts (l : List ServerRecord) :
    (groupCounts l).Pairwise (fun a b => a.1 ≠ b.1) := by
  unfold groupCounts
  suffices h : ∀ (t : List ServerRecord) (acc : List (GpKey × Nat)),
      acc.Pairwise (fun a b => a.1 ≠ b.1) →
      (t.foldl (fun acc r => insertCount acc (gpKey r)) acc).Pairwise
        (fun a b => a.1 ≠ b.1) from h l [] (by simp)
  intro t
  induction t with
  | nil => intro acc h; simpa using h
  | cons r t ih =>
    intro acc h
    rw [List.foldl_cons]
    exact ih _ (pairwise_keys_insertCount h)

theorem mem_keys_groupCounts {l : List ServerRecord} {k : GpKey} :
    (∃ c, (k, c) ∈ groupCounts l) ↔ ∃ r ∈ l, gpKey r = k := by
  unfold groupCounts
  suffices h : ∀ (t : List ServerRecord) (acc : List (GpKey × Nat)),
      (∃ c, (k, c) ∈ t.foldl (fun acc r => insertCount acc (gpKey r)) acc)
        ↔ (∃ c, (k, c) ∈ acc) ∨ ∃ r ∈ t, gpKey r = k by
    rw [h l []]
    simp
  intro t
  induction t with
  | nil => intro acc; simp
  | cons r t ih =>
    intro acc
    rw [List.foldl_cons, ih]
    constructor
    · rintro (⟨c, hc⟩ | hr)
      · rcases mem_insertCount_elim hc with hmem | hk
        · exact Or.inl ⟨c, hmem⟩
        · exact Or.inr ⟨r, List.mem_cons_self _ _, hk.symm⟩
      · rcases hr with ⟨r', hr', hk⟩
        exact Or.inr ⟨r', List.mem_cons_of_mem _ hr', hk⟩
    · rintro (⟨c, hc⟩ | ⟨r', hr', hk⟩)
      · by_cases hkr : k = gpKey r
        · exact Or.inl (hkr ▸ exists_mem_insertCount acc (gpKey r))
        · exact Or.inl ⟨c, mem_insertCount_of_mem hc hkr⟩
      · rcases List.mem_cons.1 hr' with he | ht
        · subst he
          exact Or.inl (hk ▸ exists_mem_insertCount acc (gpKey r'))
        · exact Or.inr ⟨r', ht, hk⟩

/-! ### Ranking engine: rank assignment lemmas -/

theorem foldl_rankStep_eq :
    ∀ (gs : List (GpKey × Nat)) (pos : Nat) (cur : Option GpKey)
      (acc : List (GpKey × Nat)),
      (∀ g ∈ gs, cur ≠ some g.1) →
      gs.Pairwise (fun a b => a.1 ≠ b.1) →
      (gs.foldl rankStep (pos + 1, pos, cur, acc)).2.2.2
        = acc ++ rankAssign gs pos := by
  intro gs
  induction gs with
  | nil => intro pos cur acc _ _; simp [rankAssign]
  | cons g t ih =>
    intro pos cur acc hcur hpw
    rcases List.pairwise_cons.1 hpw with ⟨hhd, htl⟩
    rw [List.foldl_cons,
      show rankStep (pos + 1, pos, cur, acc) g
        = (pos + g.2 + 1, pos + g.2, some g.1, acc ++ [(g.1, pos + 1)]) from by
        unfold rankStep
        rw [if_neg (hcur g (List.mem_cons_self _ _))],
      ih (pos + g.2) (some g.1) (acc ++ [(g.1, pos + 1)])
        (fun g' hg' h => hhd g' hg' (Option.some.injEq .. ▸ h))
        htl,
      rankAssign]
    simp

theorem rankMapping_eq_rankAssign (data1 : List ServerRecord)
    (hpw : (sortedGroups data1).Pairwise (fun a b => a.1 ≠ b.1)) :
    rankMapping data1 = rankAssign (sortedGroups data1) 0 := by
  unfold rankMapping
  rw [show ((1 : Nat), (0 : Nat), (none : Option GpKey),
      ([] : List (GpKey × Nat))) = (0 + 1, 0, none, []) from rfl,
    foldl_rankStep_eq _ 0 none [] (fun g _ h => Option.noConfusion h) hpw]
  simp

theorem sumQ_eq_zero {q : GpKey → Bool} {G : List (GpKey × Nat)}
    (h : ∀ g ∈ G, q g.1 = false) : sumQ q G = 0 := by
  induction G with
  | nil => rfl
  | cons g t ih =>
    rw [sumQ_cons, h g (List.mem_cons_self _ _), ih
      (fun g' hg' => h g' (List.mem_cons_of_mem _ hg'))]
    simp

theorem lookupRank_rankAssign :
    ∀ (gs : List (GpKey × Nat)) (pos : Nat) {k : GpKey} {c : Nat},
      gs.Pairwise (fun a b => keyGT a.1 b.1) →
      (k, c) ∈ gs →
      lookupRank (rankAssign gs pos) k
        = some (pos + 1 + sumQ (fun k' => decide (keyGT k' k)) gs) := by
  intro gs
  induction gs with
  | nil => intro pos k c _ h; simp at h
  | cons g t ih =>
    intro pos k c hpw hmem
    rcases List.pairwise_cons.1 hpw with ⟨hhd, htl⟩
    rcases List.mem_cons.1 hmem with he | ht
    · have hk : g.1 = k := by rw [← he]
      rw [rankAssign, show lookupRank ((g.1, pos + 1) :: rankAssign t (pos + g.2)) k
          = some (pos + 1) from by simp [lookupRank, hk]]
      have hz : sumQ (fun k' => decide (keyGT k' k)) (g :: t) = 0 := by
        refine sumQ_eq_zero ?_
        intro g' hg'
        rcases List.mem_cons.1 hg' with he' | ht'
        · rw [he', hk]
          simp [keyGT_irrefl k]
        · have : keyGT g.1 g'.1 := hhd g' ht'
          rw [decide_eq_false_iff_not]
          rw [← hk]
          exact keyGT_asymm this
      rw [hz]
    · have hgk : keyGT g.1 k := hhd (k, c) ht
      have hne : g.1 ≠ k := fun h => keyGT_irrefl k (h ▸ hgk)
      rw [rankAssign, show lookupRank ((g.1, pos + 1) :: rankAssign t (pos + g.2)) k
          = lookupRank (rankAssign t (pos + g.2)) k from by simp [lookupRank, hne],
        ih (pos + g.2) htl ht, sumQ_cons, Option.some_inj,
        if_pos (show (fun k' => decide (keyGT k' k)) g.1 = true from
          decide_eq_true hgk)]
      omega

/-! ### Ranking engine: the key facts about `sortedGroups` and ranks -/

theorem sortedGroups_perm (data1 : List ServerRecord) :
    (sortedGroups data1).Perm (groupCounts (sortedRecs data1)) :=
  List.mergeSort_perm _ _

theorem sortedGroups_pairwise_ne (data1 : List ServerRecord) :
    (sortedGroups data1).Pairwise (fun a b => a.1 ≠ b.1) :=
  (List.Perm.pairwise_iff (fun h => Ne.symm h) (sortedGroups_perm data1)).2
    (pairwise_keys_groupCounts _)

theorem sortedGroups_pairwise_keyGT (data1 : List ServerRecord) :
    (sortedGroups data1).Pairwise (fun a b => keyGT a.1 b.1) := by
  have h1 : (sortedGroups data1).Pairwise (fun a b => groupLE a b = true) :=
    List.sorted_mergeSort groupLE_trans groupLE_total _
  have h3 := h1.and (sortedGroups_pairwise_ne data1)
  exact h3.imp (fun hab => (groupLE_iff.1 hab.1).resolve_right hab.2)

theorem mem_sortedRecs {data1 : List ServerRecord} {r : ServerRecord} :
    r ∈ sortedRecs data1 ↔ r ∈ data1 := by
  unfold sortedRecs
  exact List.mem_mergeSort

theorem annotate_toServerRecord (m : List (GpKey × Nat)) (r : ServerRecord) :
    (annotate m r).toServerRecord = r := rfl

theorem keyR_annotate (m : List (GpKey × Nat)) (r : ServerRecord) :
    keyR (annotate m r) = gpKey r := rfl

/-- The rank annotated onto a record is its competition rank: one more than
the number of records (of the filtered set) with a strictly higher
`(grade, progressPercentage)` key. -/
theorem rank_annotate {data1 : List ServerRecord} {r : ServerRecord}
    (hr : r ∈ data1) :
    (annotate (rankMapping data1) r).rank = competitionRank data1 (gpKey r) := by
  have hmemS : r ∈ sortedRecs data1 := mem_sortedRecs.2 hr
  rcases mem_keys_groupCounts.2 ⟨r, hmemS, rfl⟩ with ⟨c, hc⟩
  have hcs : (gpKey r, c) ∈ sortedGroups data1 :=
    (sortedGroups_perm data1).mem_iff.2 hc
  have hlookup : lookupRank (rankMapping data1) (gpKey r)
      = some (0 + 1 + sumQ (fun k' => decide (keyGT k' (gpKey r)))
          (sortedGroups data1)) := by
    rw [rankMapping_eq_rankAssign data1 (sortedGroups_pairwise_ne data1)]
    exact lookupRank_rankAssign _ 0 (sortedGroups_pairwise_keyGT data1) hcs
  have hsum : sumQ (fun k' => decide (keyGT k' (gpKey r))) (sortedGroups data1)
      = countGT data1 (gpKey r) := by
    have h1 : sumQ (fun k' => decide (keyGT k' (gpKey r))) (sortedGroups data1)
        = sumQ (fun k' => decide (keyGT k' (gpKey r)))
            (groupCounts (sortedRecs data1)) := by
      unfold sumQ
      exact List.Perm.sum_eq ((sortedGroups_perm data1).map _)
    rw [h1, sumQ_groupCounts]
    unfold countGT
    exact List.Perm.countP_eq _ (List.mergeSort_perm data1 recLE)
  show (lookupRank (rankMapping data1) (gpKey r)).getD 0 = _
  rw [hlookup]
  unfold competitionRank
  rw [Option.getD_some, hsum]

theorem mem_rankPipeline {data1 : List ServerRecord} {x : RankedRecord} :
    x ∈ rankPipeline data1 ↔ ∃ r ∈ data1, x = annotate (rankMapping data1) r := by
  unfold rankPipeline
  rw [List.mem_mergeSort, List.mem_map]
  constructor
  · rintro ⟨r, hr, rfl⟩
    exact ⟨r, mem_sortedRecs.1 hr, rfl⟩
  · rintro ⟨r, hr, rfl⟩
    exact ⟨r, mem_sortedRecs.2 hr, rfl⟩

theorem competitionRank_lt_of_keyGT {l : List ServerRecord} {k1 k2 : GpKey}
    (h1 : occursIn l k1) (hgt : keyGT k1 k2) :
    competitionRank l k1 < competitionRank l k2 := by
  rcases h1 with ⟨r, hr, hkr⟩
  rcases List.append_of_mem hr with ⟨s, t, rfl⟩
  unfold competitionRank countGT
  rw [List.countP_append, List.countP_cons, List.countP_append, List.countP_cons]
  have hms : List.countP (fun x => decide (keyGT (gpKey x) k1)) s
      ≤ List.countP (fun x => decide (keyGT (gpKey x) k2)) s :=
    List.countP_mono_left (fun x _ hx =>
      decide_eq_true (keyGT_trans (of_decide_eq_true hx) hgt))
  have hmt : List.countP (fun x => decide (keyGT (gpKey x) k1)) t
      ≤ List.countP (fun x => decide (keyGT (gpKey x) k2)) t :=
    List.countP_mono_left (fun x _ hx =>
      decide_eq_true (keyGT_trans (of_decide_eq_true hx) hgt))
  have hr1 : decide (keyGT (gpKey r) k1) = false := by
    rw [hkr]; exact decide_eq_false (keyGT_irrefl k1)
  have hr2 : decide (keyGT (gpKey r) k2) = true := by
    rw [hkr]; exact decide_eq_true hgt
  simp only [hr1, hr2]
  simp only [Bool.false_eq_true, if_false, if_true]
  omega

theorem competitionRank_eq_iff {l : List ServerRecord} {k1 k2 : GpKey}
    (h1 : occursIn l k1) (h2 : occursIn l k2) :
    competitionRank l k1 = competitionRank l k2 ↔ k1 = k2 := by
  constructor
  · intro he
    rcases keyGT_trichotomy k1 k2 with h | h | h
    · exact absurd he (Nat.ne_of_lt (competitionRank_lt_of_keyGT h1 h))
    · exact h
    · exact absurd he.symm (Nat.ne_of_lt (competitionRank_lt_of_keyGT h2 h))
  · rintro rfl; rfl

theorem competitionRank_lt_iff {l : List ServerRecord} {k1 k2 : GpKey}
    (h1 : occursIn l k1) (h2 : occursIn l k2) :
    competitionRank l k1 < competitionRank l k2 ↔ keyGT k1 k2 := by
  constructor
  · intro hlt
    rcases keyGT_trichotomy k1 k2 with h | h | h
    · exact h
    · subst h; exact absurd hlt (lt_irrefl _)
    · exact absurd (lt_trans hlt (competitionRank_lt_of_keyGT h2 h)) (lt_irrefl _)
  · exact competitionRank_lt_of_keyGT h1

/-- Equal ranks in the pipeline output are exactly equal
`(grade, progressPercentage)` keys. -/
theorem rank_eq_iff_of_mem {data1 : List ServerRecord} {x y : RankedRecord}
    (hx : x ∈ rankPipeline data1) (hy : y ∈ rankPipeline data1) :
    x.rank = y.rank ↔ keyR x = keyR y := by
  rcases mem_rankPipeline.1 hx with ⟨r, hr, rfl⟩
  rcases mem_rankPipeline.1 hy with ⟨r', hr', rfl⟩
  rw [rank_annotate hr, rank_annotate hr', keyR_annotate, keyR_annotate]
  exact competitionRank_eq_iff ⟨r, hr, rfl⟩ ⟨r', hr', rfl⟩

/-- Each output rank is one more than the number of output rows with a
strictly smaller rank. -/
theorem rank_eq_one_add_countP {data1 : List ServerRecord} {x : RankedRecord}
    (hx : x ∈ rankPipeline data1) :
    x.rank = 1 + (rankPipeline data1).countP (fun y => decide (y.rank < x.rank)) := by
  rcases mem_rankPipeline.1 hx with ⟨r, hr, rfl⟩
  have hperm : (rankPipeline data1).Perm
      ((sortedRecs data1).map (annotate (rankMapping data1))) :=
    List.mergeSort_perm _ _
  rw [List.Perm.countP_eq _ hperm, List.countP_map]
  have hcongr : List.countP
      ((fun y : RankedRecord =>
          decide (y.rank < (annotate (rankMapping data1) r).rank))
        ∘ annotate (rankMapping data1)) (sortedRecs data1)
      = List.countP (fun r' => decide (keyGT (gpKey r') (gpKey r)))
          (sortedRecs data1) := by
    refine List.countP_congr ?_
    intro r' hr'
    have hr'd : r' ∈ data1 := mem_sortedRecs.1 hr'
    simp only [Function.comp_apply]
    rw [rank_annotate hr'd, rank_annotate hr]
    by_cases h : keyGT (gpKey r') (gpKey r)
    · rw [decide_eq_true h, decide_eq_true
        ((competitionRank_lt_iff ⟨r', hr'd, rfl⟩ ⟨r, hr, rfl⟩).2 h)]
    · rw [decide_eq_false h, decide_eq_false
        (fun hlt => h ((competitionRank_lt_iff ⟨r', hr'd, rfl⟩ ⟨r, hr, rfl⟩).1 hlt))]
  rw [hcongr, rank_annotate hr]
  unfold competitionRank
  congr 1
  unfold countGT
  exact List.Perm.countP_eq _ (List.mergeSort_perm data1 recLE).symm

theorem rankPipeline_sorted (data1 : List ServerRecord) :
    (rankPipeline data1).Pairwise (fun a b : RankedRecord => a.rank ≤ b.rank) := by
  have h := List.sorted_mergeSort rankLE_trans rankLE_total
    ((sortedRecs data1).map (annotate (rankMapping data1)))
  exact h.imp (fun hab => by simpa [rankLE] using hab)

/-- The final display sort is a no-op: the key-sorted, annotated list is
already in ascending rank order. -/
theorem rankPipeline_eq_annotated (data1 : List ServerRecord) :
    rankPipeline data1 = (sortedRecs data1).map (annotate (rankMapping data1)) := by
  unfold rankPipeline
  refine List.mergeSort_of_sorted ?_
  rw [List.pairwise_map]
  have hs : (sortedRecs data1).Pairwise (fun a b => recLE a b = true) :=
    List.sorted_mergeSort recLE_trans recLE_total data1
  refine List.Pairwise.imp_of_mem ?_ hs
  intro a b ha hb hab
  have had : a ∈ data1 := mem_sortedRecs.1 ha
  have hbd : b ∈ data1 := mem_sortedRecs.1 hb
  show rankLE (annotate _ a) (annotate _ b) = true
  unfold rankLE
  rw [decide_eq_true_iff, rank_annotate had, rank_annotate hbd]
  rcases recLE_iff.1 hab with h | h
  · exact le_of_lt ((competitionRank_lt_iff ⟨a, had, rfl⟩ ⟨b, hbd, rfl⟩).2 h)
  · rw [h]

theorem countP_lt_eq_of_indices {L : List RankedRecord} {x : RankedRecord}
    {n : Nat} (hn : n ≤ L.length)
    (hlo : ∀ i (hi : i < L.length), i < n → (L.get ⟨i, hi⟩).rank < x.rank)
    (hhi : ∀ i (hi : i < L.length), n ≤ i → ¬ ((L.get ⟨i, hi⟩).rank < x.rank)) :
    L.countP (fun y => decide (y.rank < x.rank)) = n := by
  conv_lhs => rw [← List.take_append_drop n L]
  rw [List.countP_append]
  have hlen_take : (L.take n).length = n := by
    rw [List.length_take]; omega
  have h1 : (L.take n).countP (fun y => decide (y.rank < x.rank))
      = (L.take n).length := by
    rw [List.countP_eq_length]
    intro y hy
    rcases List.mem_iff_getElem.1 hy with ⟨i, hi, hy'⟩
    have hin : i < n := by rw [hlen_take] at hi; exact hi
    have hiL : i < L.length := by omega
    rw [← hy', List.getElem_take L]
    exact decide_eq_true (hlo i hiL hin)
  have h2 : (L.drop n).countP (fun y => decide (y.rank < x.rank)) = 0 := by
    rw [List.countP_eq_zero]
    intro y hy
    rcases List.mem_iff_getElem.1 hy with ⟨j, hj, hy'⟩
    have hjL : n + j < L.length := by
      have := List.length_drop n L
      omega
    rw [← hy', List.getElem_drop L]
    intro hdec
    exact hhi (n + j) hjL (by omega) (of_decide_eq_true hdec)
  rw [h1, h2, hlen_take]
  omega

theorem rank_mono_of_sorted {L : List RankedRecord}
    (hS : L.Pairwise (fun a b => a.rank ≤ b.rank)) {i j : Nat}
    (hi : i < L.length) (hj : j < L.length) (hij : i ≤ j) :
    (L.get ⟨i, hi⟩).rank ≤ (L.get ⟨j, hj⟩).rank := by
  rcases Nat.lt_or_ge i j with h | h
  · have := List.pairwise_iff_getElem.1 hS i j hi hj h
    simpa [List.get_eq_getElem] using this
  · have : i = j := le_antisymm hij h
    subst this
    exact le_refl _

/-- The jump law for any list satisfying the count characterization and
sorted by rank: a maximal tie group of size `c` whose first member sits at
0-indexed position `s` carries rank `s + 1`, and the next distinct group's
rank is `(s + 1) + c`. -/
theorem jump_law_of_countP {L : List RankedRecord}
    (hM : ∀ x ∈ L, x.rank = 1 + L.countP (fun y => decide (y.rank < x.rank)))
    (hS : L.Pairwise (fun a b => a.rank ≤ b.rank))
    {s c r : Nat} (hc : 0 < c) (hlen : s + c < L.length)
    (hgrp : ∀ i (hi : i < L.length), s ≤ i → i < s + c → (L.get ⟨i, hi⟩).rank = r)
    (hprev : s = 0 ∨ ∀ hs : s - 1 < L.length, (L.get ⟨s - 1, hs⟩).rank ≠ r)
    (hnext : (L.get ⟨s + c, hlen⟩).rank ≠ r) :
    r = s + 1 ∧ (L.get ⟨s + c, hlen⟩).rank = s + c + 1 := by
  have hsl : s < L.length := by omega
  have mono : ∀ i j (hi : i < L.length) (hj : j < L.length), i ≤ j →
      (L.get ⟨i, hi⟩).rank ≤ (L.get ⟨j, hj⟩).rank :=
    fun i j hi hj hij => rank_mono_of_sorted hS hi hj hij
  have hrs : (L.get ⟨s, hsl⟩).rank = r := hgrp s hsl (le_refl _) (by omega)
  have hlow : ∀ i (hi : i < L.length), i < s → (L.get ⟨i, hi⟩).rank < r := by
    intro i hi his
    have hs0 : s ≠ 0 := by omega
    rcases hprev with h | h
    · exact absurd h hs0
    · have hs1 : s - 1 < L.length := by omega
      have h1 : (L.get ⟨i, hi⟩).rank ≤ (L.get ⟨s - 1, hs1⟩).rank :=
        mono i (s - 1) hi hs1 (by omega)
      have h2 : (L.get ⟨s - 1, hs1⟩).rank ≤ (L.get ⟨s, hsl⟩).rank :=
        mono (s - 1) s hs1 hsl (by omega)
      have h3 := h hs1
      rw [hrs] at h2
      omega
  have hr1 : r = s + 1 := by
    have hx1 := hM (L.get ⟨s, hsl⟩) (List.get_mem L s hsl)
    have hcount1 : L.countP (fun y => decide (y.rank < (L.get ⟨s, hsl⟩).rank)) = s := by
      refine countP_lt_eq_of_indices (le_of_lt hsl) ?_ ?_
      · intro i hi his
        rw [hrs]
        exact hlow i hi his
      · intro i hi hsi
        have := mono s i hsl hi hsi
        omega
    rw [hcount1] at hx1
    omega
  have hrlt : r < (L.get ⟨s + c, hlen⟩).rank := by
    have hscm : s + c - 1 < L.length := by omega
    have he : (L.get ⟨s + c - 1, hscm⟩).rank = r :=
      hgrp (s + c - 1) hscm (by omega) (by omega)
    have hle : (L.get ⟨s + c - 1, hscm⟩).rank ≤ (L.get ⟨s + c, hlen⟩).rank :=
      mono (s + c - 1) (s + c) hscm hlen (by omega)
    rw [he] at hle
    rcases lt_or_eq_of_le hle with h | h
    · exact h
    · exact absurd h.symm hnext
  have hr2 : (L.get ⟨s + c, hlen⟩).rank = s + c + 1 := by
    have hx2 := hM (L.get ⟨s + c, hlen⟩) (List.get_mem L (s + c) hlen)
    have hcount2 : L.countP
        (fun y => decide (y.rank < (L.get ⟨s + c, hlen⟩).rank)) = s + c := by
      refine countP_lt_eq_of_indices (le_of_lt hlen) ?_ ?_
      · intro i hi hisc
        rcases Nat.lt_or_ge i s with his | his
        · exact lt_trans (hlow i hi his) hrlt
        · rw [hgrp i hi his hisc]
          exact hrlt
      · intro i hi hsci
        have := mono (s + c) i hlen hi hsci
        omega
    rw [hcount2] at hx2
    omega
  exact ⟨hr1, hr2⟩

unseal List.mergeSort List.merge in
/-- C3.  For every well-formed `ServerRecord` list and filter: (1) the
returned list is sorted by rank ascending; (2) two returned records have
equal rank iff their `(grade, progressPercentage)` pairs are equal; (3) the
jump law: a maximal tie group of size `c` whose first member sits at
0-indexed position `s` (1-indexed position `p = s + 1`) carries rank `p`,
and the next distinct group's rank is `p + c`; (4) the three-record example
A:(5, 1/2), B:(5, 1/2), C:(4, 9/10) is ranked A 1, B 1, C 3. -/
theorem createRanking_correct :
    (∀ (data : List ServerRecord) (f : Option String),
      (createRanking data f).Pairwise (fun a b => a.rank ≤ b.rank)) ∧
    (∀ (data : List ServerRecord) (f : Option String),
      ∀ x ∈ createRanking data f, ∀ y ∈ createRanking data f,
        (x.rank = y.rank ↔
          (x.grade, x.progressPercentage) = (y.grade, y.progressPercentage))) ∧
    (∀ (data : List ServerRecord) (f : Option String) (s c r : Nat)
      (hlen : s + c < (createRanking data f).length), 0 < c →
      (∀ i (hi : i < (createRanking data f).length), s ≤ i → i < s + c →
        ((createRanking data f).get ⟨i, hi⟩).rank = r) →
      (s = 0 ∨ ∀ hs : s - 1 < (createRanking data f).length,
        ((createRanking data f).get ⟨s - 1, hs⟩).rank ≠ r) →
      ((createRanking data f).get ⟨s + c, hlen⟩).rank ≠ r →
      (r = s + 1 ∧ ((createRanking data f).get ⟨s + c, hlen⟩).rank = s + c + 1)) ∧
    ((createRanking
        [⟨"A", "Chaos", 5, mkRat 1 2, "gauge-4", "Researching"⟩,
         ⟨"B", "Chaos", 5, mkRat 1 2, "gauge-4", "Researching"⟩,
         ⟨"C", "Chaos", 4, mkRat 9 10, "gauge-7", "Researching"⟩] none).map
        (fun x => (x.serverName, x.rank))
      = [("A", 1), ("B", 1), ("C", 3)]) := by
  have hguard : ∀ (data : List ServerRecord) (f : Option String),
      createRanking data f = [] ∨
      createRanking data f = rankPipeline (filterDC data f) := by
    intro data f
    unfold createRanking
    by_cases h : data.isEmpty
    · exact Or.inl (if_pos h)
    · exact Or.inr (if_neg h)
  refine ⟨?_, ?_, ?_, ?_⟩
  · intro data f
    rcases hguard data f with h | h <;> rw [h]
    · exact List.Pairwise.nil
    · exact rankPipeline_sorted _
  · intro data f x hx y hy
    rcases hguard data f with h | h
    · rw [h] at hx
      exact absurd hx (List.not_mem_nil x)
    · rw [h] at hx hy
      exact rank_eq_iff_of_mem hx hy
  · intro data f s c r hlen hc hgrp hprev hnext
    have hM : ∀ x ∈ createRanking data f,
        x.rank = 1 + (createRanking data f).countP
          (fun y => decide (y.rank < x.rank)) := by
      rcases hguard data f with h | h <;> rw [h]
      · intro x hx
        exact absurd hx (List.not_mem_nil x)
      · exact fun x hx => rank_eq_one_add_countP hx
    have hS : (createRanking data f).Pairwise
        (fun a b : RankedRecord => a.rank ≤ b.rank) := by
      rcases hguard data f with h | h <;> rw [h]
      · exact List.Pairwise.nil
      · exact rankPipeline_sorted _
    exact jump_law_of_countP hM hS hc hlen hgrp hprev hnext
  · decide

unseal List.mergeSort List.merge in
theorem createRanking_correct_witness :
    (0 : Nat) < 2 ∧
    (0 : Nat) + 2 < (createRanking
        [⟨"A", "Chaos", 5, mkRat 1 2, "gauge-4", "Researching"⟩,
         ⟨"B", "Chaos", 5, mkRat 1 2, "gauge-4", "Researching"⟩,
         ⟨"C", "Chaos", 4, mkRat 9 10, "gauge-7", "Researching"⟩] none).length ∧
    ((1 : Nat) = 0 + 1 ∧
      ((createRanking
        [⟨"A", "Chaos", 5, mkRat 1 2, "gauge-4", "Researching"⟩,
         ⟨"B", "Chaos", 5, mkRat 1 2, "gauge-4", "Researching"⟩,
         ⟨"C", "Chaos", 4, mkRat 9 10, "gauge-7", "Researching"⟩] none).get
          ⟨0 + 2, by decide⟩).rank = 0 + 2 + 1) :=
  ⟨by decide, by decide,
    createRanking_correct.2.2.1
      [⟨"A", "Chaos", 5, mkRat 1 2, "gauge-4", "Researching"⟩,
       ⟨"B", "Chaos", 5, mkRat 1 2, "gauge-4", "Researching"⟩,
       ⟨"C", "Chaos", 4, mkRat 9 10, "gauge-7", "Researching"⟩] none 0 2 1
      (by decide) (by decide) (by decide) (Or.inl rfl) (by decide)⟩

/-- A stable sort commutes with `filter`: sorting the filtered list equals
filtering the sorted list. -/
theorem filter_mergeSort_comm {α : Type} {le : α → α → Bool}
    (htrans : ∀ a b c : α, le a b = true → le b c = true → le a c = true)
    (htotal : ∀ a b : α, (le a b || le b a) = true)
    (p : α → Bool) :
    ∀ l : List α, (l.filter p).mergeSort le = (l.mergeSort le).filter p := by
  intro l
  induction l with
  | nil => simp
  | cons a l ih =>
    rcases List.mergeSort_cons htrans htotal a l with ⟨l₁, l₂, h₁, h₂, h₃⟩
    rw [h₁, List.filter_append, List.filter_cons]
    by_cases hpa : p a
    · simp only [hpa, if_true]
      rw [List.filter_cons_of_pos hpa]
      rcases List.mergeSort_cons htrans htotal a (l.filter p) with ⟨m₁, m₂, g₁, g₂, g₃⟩
      rw [g₁]
      have hiheq : m₁ ++ m₂ = l₁.filter p ++ l₂.filter p := by
        rw [← g₂, ih, h₂, List.filter_append]
      have hsorted1 : (m₁ ++ a :: m₂).Pairwise (fun x y => le x y = true) := by
        rw [← g₁]
        exact List.sorted_mergeSort htrans htotal _
      have hsorted2 : (l₁ ++ a :: l₂).Pairwise (fun x y => le x y = true) := by
        rw [← h₁]
        exact List.sorted_mergeSort htrans htotal _
      have ham2 : ∀ b ∈ m₂, le a b = true :=
        (List.pairwise_cons.1
          (hsorted1.sublist (List.sublist_append_right m₁ (a :: m₂)))).1
      have hal2 : ∀ b ∈ l₂, le a b = true :=
        (List.pairwise_cons.1
          (hsorted2.sublist (List.sublist_append_right l₁ (a :: l₂)))).1
      have key : m₁ = l₁.filter p ∧ m₂ = l₂.filter p := by
        rcases List.append_eq_append_iff.1 hiheq with ⟨t, hA, hB⟩ | ⟨t, hA, hB⟩
        · cases t with
          | nil => exact ⟨by rw [hA, List.append_nil], by rw [hB, List.nil_append]⟩
          | cons x ts =>
            have hx1 : x ∈ l₁.filter p := by rw [hA]; simp
            have hx2 : x ∈ m₂ := by rw [hB]; simp
            have hxl1 : x ∈ l₁ := (List.mem_filter.1 hx1).1
            exact absurd (ham2 x hx2) (by simpa using h₃ x hxl1)
        · cases t with
          | nil => exact ⟨by rw [hA, List.append_nil], by rw [hB, List.nil_append]⟩
          | cons x ts =>
            have hx1 : x ∈ m₁ := by rw [hA]; simp
            have hx2 : x ∈ l₂.filter p := by rw [hB]; simp
            have hxl2 : x ∈ l₂ := (List.mem_filter.1 hx2).1
            exact absurd (hal2 x hxl2) (by simpa using g₃ x hx1)
      rw [key.1, key.2]
    · simp only [hpa, Bool.false_eq_true, if_false]
      rw [ih, h₂, List.filter_append, List.filter_cons_of_neg hpa]

/-- Stripping the annotations from the pipeline output recovers the
key-sorted record list: the display sort does not permute. -/
theorem rankPipeline_strip (data1 : List ServerRecord) :
    (rankPipeline data1).map RankedRecord.toServerRecord = sortedRecs data1 := by
  rw [rankPipeline_eq_annotated, List.map_map]
  have h : RankedRecord.toServerRecord ∘ annotate (rankMapping data1) = id := by
    funext r
    rfl
  rw [h, List.map_id]

theorem rankPipeline_nil : rankPipeline [] = [] := by
  unfold rankPipeline
  rw [show sortedRecs [] = [] from List.mergeSort_nil]
  simp

theorem strip_createRanking_none (d : List ServerRecord) :
    (createRanking d none).map RankedRecord.toServerRecord = sortedRecs d := by
  unfold createRanking
  by_cases h : d.isEmpty
  · rw [if_pos h, List.isEmpty_iff.1 h]
    rw [show sortedRecs [] = [] from List.mergeSort_nil]
    rfl
  · rw [if_neg h]
    exact rankPipeline_strip d

/-- C8.  Filtering by a data-center name: (1) ranking with the filter equals
ranking the exactly-matching subset from scratch (ranks recomputed over the
subset); (2) the underlying records of the filtered ranking are precisely
the matching records of the unfiltered ranking, in the same relative order
(stable sort commutes with `filter`); (3) every returned record matches the
filter; (4) ties in the filtered ranking are exactly equal
`(grade, progressPercentage)` keys, the same tie structure as in the
unfiltered ranking (`'all'` or an absent filter means no filtering, by
definition of `filterDC`). -/
theorem createRanking_filter_correct (data : List ServerRecord) (dc : String)
    (h1 : dc ≠ "") (h2 : dc ≠ "all") :
    (createRanking data (some dc)
      = createRanking (data.filter (fun r => r.dataCenter == dc)) none) ∧
    ((createRanking data (some dc)).map RankedRecord.toServerRecord
      = ((createRanking data none).map RankedRecord.toServerRecord).filter
          (fun r => r.dataCenter == dc)) ∧
    (∀ x ∈ createRanking data (some dc), x.dataCenter = dc) ∧
    (∀ x ∈ createRanking data (some dc), ∀ y ∈ createRanking data (some dc),
      (x.rank = y.rank ↔
        (x.grade, x.progressPercentage) = (y.grade, y.progressPercentage))) := by
  have hfd : filterDC data (some dc) = data.filter (fun r => r.dataCenter == dc) := by
    show (if dc ≠ "" ∧ dc ≠ "all" then data.filter (fun r => r.dataCenter == dc)
        else data) = data.filter (fun r => r.dataCenter == dc)
    rw [if_pos ⟨h1, h2⟩]
  have heq : createRanking data (some dc)
      = createRanking (data.filter (fun r => r.dataCenter == dc)) none := by
    unfold createRanking
    by_cases hde : data.isEmpty
    · rw [if_pos hde, List.isEmpty_iff.1 hde]
      simp
    · rw [if_neg hde, hfd]
      by_cases hfe : (data.filter (fun r => r.dataCenter == dc)).isEmpty
      · rw [if_pos hfe, List.isEmpty_iff.1 hfe, rankPipeline_nil]
      · rw [if_neg hfe]
        rfl
  refine ⟨heq, ?_, ?_, ?_⟩
  · rw [heq, strip_createRanking_none, strip_createRanking_none]
    unfold sortedRecs
    exact filter_mergeSort_comm recLE_trans recLE_total _ data
  · intro x hx
    have hg : createRanking data (some dc) = [] ∨
        createRanking data (some dc) = rankPipeline (filterDC data (some dc)) := by
      unfold createRanking
      by_cases h : data.isEmpty
      · exact Or.inl (if_pos h)
      · exact Or.inr (if_neg h)
    rcases hg with h | h
    · rw [h] at hx
      exact absurd hx (List.not_mem_nil x)
    · rw [h] at hx
      rcases mem_rankPipeline.1 hx with ⟨r, hr, rfl⟩
      rw [hfd] at hr
      have := (List.mem_filter.1 hr).2
      exact eq_of_beq this
  · intro x hx y hy
    have hg : createRanking data (some dc) = [] ∨
        createRanking data (some dc) = rankPipeline (filterDC data (some dc)) := by
      unfold createRanking
      by_cases h : data.isEmpty
      · exact Or.inl (if_pos h)
      · exact Or.inr (if_neg h)
    rcases hg with h | h
    · rw [h] at hx
      exact absurd hx (List.not_mem_nil x)
    · rw [h] at hx hy
      exact rank_eq_iff_of_mem hx hy

unseal List.mergeSort List.merge in
theorem createRanking_filter_correct_witness :
    ("Chaos" : String) ≠ "" ∧ ("Chaos" : String) ≠ "all" ∧
    createRanking
        [⟨"Omega", "Chaos", 5, mkRat 1 2, "gauge-4", "Researching"⟩,
         ⟨"Odin", "Light", 4, mkRat 3 8, "gauge-3", "Researching"⟩] (some "Chaos")
      = createRanking
          ([⟨"Omega", "Chaos", 5, mkRat 1 2, "gauge-4", "Researching"⟩,
            ⟨"Odin", "Light", 4, mkRat 3 8, "gauge-3", "Researching"⟩].filter
            (fun r => r.dataCenter == "Chaos")) none :=
  ⟨by decide, by decide,
    (createRanking_filter_correct
      [⟨"Omega", "Chaos", 5, mkRat 1 2, "gauge-4", "Researching"⟩,
       ⟨"Odin", "Light", 4, mkRat 3 8, "gauge-3", "Researching"⟩] "Chaos"
      (by decide) (by decide)).1⟩

end Cosmic
